import Mathlib

/-!
Verification of the configuration/projection engine of the go-perf-v2
benchmark-processing library: the hash-consed Config/ConfigSet store, the
dynamically growable Schema with its projection and sorting, the kvql query
language (tokenizer, parser) and the per-measurement Filter/Match bitsets.

Go source is shallowly embedded: pointers become arena indices (`Nat`),
Go maps become association lists consed at the front (an overwriting map
assignment shadows the old entry, which has the same lookup semantics),
uint64 words become `Nat` manipulated through bitwise operations, and
mutation becomes explicit state passing.
-/

set_option maxHeartbeats 1000000

namespace GoPerf

/-- First-match association-list lookup, modelling a Go map read (entries
are consed at the front on write, so the most recent write wins). -/
def alookup {α β : Type} [DecidableEq α] : List (α × β) → α → Option β
  | [], _ => none
  | (k, v) :: rest, a => if k = a then some v else alookup rest a

theorem alookup_cons {α β : Type} [DecidableEq α] (k : α) (v : β) (l : List (α × β)) (a : α) :
    alookup ((k, v) :: l) a = if k = a then some v else alookup l a := rfl

/-- If no entry of `l1` has key `a`, looking up `a` in `l1 ++ l2` falls
through to `l2`. -/
theorem alookup_append_of_notin {α β : Type} [DecidableEq α]
    (l1 l2 : List (α × β)) (a : α) (h : ∀ e ∈ l1, e.1 ≠ a) :
    alookup (l1 ++ l2) a = alookup l2 a := by
  induction l1 with
  | nil => rfl
  | cons e rest ih =>
    obtain ⟨k, v⟩ := e
    have hk : k ≠ a := h (k, v) (List.mem_cons_self _ _)
    simp only [List.cons_append, alookup, if_neg hk]
    exact ih (fun e he => h e (List.mem_cons_of_mem _ he))

/-- Membership of a key in an association list implies lookup success. -/
theorem alookup_isSome_of_mem {α β : Type} [DecidableEq α]
    (l : List (α × β)) (a : α) (v : β) (h : (a, v) ∈ l) :
    (alookup l a).isSome := by
  induction l with
  | nil => cases h
  | cons e rest ih =>
    obtain ⟨k, w⟩ := e
    rcases List.mem_cons.mp h with heq | hmem
    · cases heq
      simp [alookup]
    · by_cases hk : k = a
      · simp [alookup, hk]
      · simpa [alookup, hk] using ih hmem

/-- Any value returned by `alookup` is a value stored in the list. -/
theorem alookup_mem {α β : Type} [DecidableEq α]
    (l : List (α × β)) (a : α) (v : β) (h : alookup l a = some v) :
    (a, v) ∈ l := by
  induction l with
  | nil => cases h
  | cons e rest ih =>
    obtain ⟨k, w⟩ := e
    by_cases hk : k = a
    · subst hk
      simp only [alookup, if_pos rfl] at h
      cases h
      exact List.mem_cons_self _ _
    · simp only [alookup, if_neg hk] at h
      exact List.mem_cons_of_mem _ (ih h)

/-! ## ConfigSet / Config (benchproc config store)

A `Config` is a key/value leaf or a tuple node `(prefix, elt, tupleLen)`
represented as a reversed chain. Pointers are modelled as indices into an
append-only arena; `ConfigSet.kvs` and `ConfigSet.tuples` are the two
canonicalization tables `(key,value) → Config` and `(prefix,element) → Config`.
-/

/-- The payload of one heap-allocated `Config` node. A leaf holds a
key/value pair; a tuple node holds its prefix chain (or `none` for a
1-element tuple), its last element and its total tuple length. -/
inductive CNodeData where
  | kv (key val : String)
  | tup (pfx : Option Nat) (elt : Nat) (tupleLen : Nat)
deriving DecidableEq, Repr

/-- The `ConfigSet` state: the arena of all allocated nodes (a node's
"pointer" is its index) and the two canonicalization tables. -/
structure ConfigSet where
  arena : List CNodeData
  kvs : List ((String × String) × Nat)
  tuples : List ((Option Nat × Nat) × Nat)
deriving Repr

def ConfigSet.empty : ConfigSet := ⟨[], [], []⟩

/-- `ConfigSet.KeyVal`: return the canonical leaf for `(key,val)`,
allocating it on first use. -/
def ConfigSet.keyVal (s : ConfigSet) (key val : String) : Nat × ConfigSet :=
  match alookup s.kvs (key, val) with
  | some c => (c, s)
  | none =>
    let c := s.arena.length
    (c, { s with arena := s.arena ++ [.kv key val], kvs := ((key, val), c) :: s.kvs })

/-- `tupleLen` of a node id, as read through `base.tupleLen` in Go
(leaves store 0 there). -/
def ConfigSet.lenOf (s : ConfigSet) (base : Option Nat) : Nat :=
  match base with
  | none => 0
  | some b =>
    match s.arena[b]? with
    | some (.tup _ _ n) => n
    | _ => 0

/-- The loop of `ConfigSet.Append`: extend `pfx` by `elts`, looking each
`(prefix, elt)` pair up in the tuple table while `found` holds and
allocating (and recording) fresh nodes once a lookup has missed. -/
def ConfigSet.appendLoop (s : ConfigSet) (baseLen : Nat) (pfx : Option Nat) (found : Bool)
    (i : Nat) (elts : List Nat) : Option Nat × ConfigSet :=
  match elts with
  | [] => (pfx, s)
  | elt :: rest =>
    if found then
      match alookup s.tuples (pfx, elt) with
      | some c => s.appendLoop baseLen (some c) true (i + 1) rest
      | none =>
        let c := s.arena.length
        let s' : ConfigSet :=
          { s with arena := s.arena ++ [.tup pfx elt (baseLen + i + 1)],
                   tuples := ((pfx, elt), c) :: s.tuples }
        s'.appendLoop baseLen (some c) false (i + 1) rest
    else
      let c := s.arena.length
      let s' : ConfigSet :=
        { s with arena := s.arena ++ [.tup pfx elt (baseLen + i + 1)],
                 tuples := ((pfx, elt), c) :: s.tuples }
      s'.appendLoop baseLen (some c) false (i + 1) rest

/-- `ConfigSet.Append(base, elts...)`. Returns the final tuple node (or
`base` itself when `elts` is empty). -/
def ConfigSet.appendGo (s : ConfigSet) (base : Option Nat) (elts : List Nat) :
    Option Nat × ConfigSet :=
  s.appendLoop (s.lenOf base) base true 0 elts

/-- `ConfigSet.Tuple(elts...) = Append(nil, elts...)`. -/
def ConfigSet.tuple (s : ConfigSet) (elts : List Nat) : Option Nat × ConfigSet :=
  s.appendGo none elts

/-- Variant of the append loop that never skips the canonicalization-table
lookup (the spec-side reference for the `found` optimization). -/
def ConfigSet.appendLoopNS (s : ConfigSet) (baseLen : Nat) (pfx : Option Nat)
    (i : Nat) (elts : List Nat) : Option Nat × ConfigSet :=
  match elts with
  | [] => (pfx, s)
  | elt :: rest =>
    match alookup s.tuples (pfx, elt) with
    | some c => s.appendLoopNS baseLen (some c) (i + 1) rest
    | none =>
      let c := s.arena.length
      let s' : ConfigSet :=
        { s with arena := s.arena ++ [.tup pfx elt (baseLen + i + 1)],
                 tuples := ((pfx, elt), c) :: s.tuples }
      s'.appendLoopNS baseLen (some c) (i + 1) rest

/-- Well-formedness of the tuple table: all node ids mentioned by a table
entry (the key's prefix and the stored canonical node) point into the
arena. This holds for every ConfigSet built through the API. -/
def ConfigSet.WFt (s : ConfigSet) : Prop :=
  ∀ k c, (k, c) ∈ s.tuples →
    (∀ p, k.1 = some p → p < s.arena.length) ∧ c < s.arena.length

/-- Validity of an optional node id against the arena. -/
def okPfx (s : ConfigSet) (pfx : Option Nat) : Prop :=
  ∀ p, pfx = some p → p < s.arena.length

theorem alookup_eq_none_of_forall {α β : Type} [DecidableEq α]
    (l : List (α × β)) (a : α) (h : ∀ e ∈ l, e.1 ≠ a) : alookup l a = none := by
  induction l with
  | nil => rfl
  | cons e rest ih =>
    obtain ⟨k, v⟩ := e
    have hk : k ≠ a := h (k, v) (List.mem_cons_self _ _)
    simp only [alookup, if_neg hk]
    exact ih (fun e he => h e (List.mem_cons_of_mem _ he))

/-- The no-skip append loop only extends the arena. -/
theorem appendLoopNS_arena (s : ConfigSet) (bl : Nat) (pfx : Option Nat) (i : Nat)
    (elts : List Nat) :
    ∃ ext, (s.appendLoopNS bl pfx i elts).2.arena = s.arena ++ ext := by
  induction elts generalizing s pfx i with
  | nil => exact ⟨[], by simp [ConfigSet.appendLoopNS]⟩
  | cons elt rest ih =>
    cases h : alookup s.tuples (pfx, elt) with
    | some c =>
      obtain ⟨ext, hext⟩ := ih s (some c) (i + 1)
      exact ⟨ext, by simp [ConfigSet.appendLoopNS, h, hext]⟩
    | none =>
      obtain ⟨ext, hext⟩ :=
        ih { s with arena := s.arena ++ [.tup pfx elt (bl + i + 1)],
                    tuples := ((pfx, elt), s.arena.length) :: s.tuples }
           (some s.arena.length) (i + 1)
      refine ⟨.tup pfx elt (bl + i + 1) :: ext, ?_⟩
      simp only [ConfigSet.appendLoopNS, h]
      simp only [hext, List.append_assoc, List.singleton_append]

/-- The no-skip append loop never changes the value of a key that is
already bound in the tuple table. -/
theorem appendLoopNS_stable (s : ConfigSet) (bl : Nat) (pfx : Option Nat) (i : Nat)
    (elts : List Nat) (k : Option Nat × Nat) (hs : (alookup s.tuples k).isSome) :
    alookup (s.appendLoopNS bl pfx i elts).2.tuples k = alookup s.tuples k := by
  induction elts generalizing s pfx i with
  | nil => simp [ConfigSet.appendLoopNS]
  | cons elt rest ih =>
    cases h : alookup s.tuples (pfx, elt) with
    | some c =>
      simpa [ConfigSet.appendLoopNS, h] using ih s (some c) (i + 1) hs
    | none =>
      have hk : (pfx, elt) ≠ k := by
        intro he; rw [he] at h; rw [h] at hs; cases hs
      set s1 : ConfigSet :=
        { s with arena := s.arena ++ [.tup pfx elt (bl + i + 1)],
                 tuples := ((pfx, elt), s.arena.length) :: s.tuples } with hs1
      have h1 : alookup s1.tuples k = alookup s.tuples k := by
        simp [hs1, alookup, if_neg hk]
      have hs' : (alookup s1.tuples k).isSome := by rw [h1]; exact hs
      have := ih s1 (some s.arena.length) (i + 1) hs'
      simp only [ConfigSet.appendLoopNS, h]
      rw [this, h1]

/-- Idempotence of the no-skip append: re-running the same append on the
resulting state finds every chain node in the table and returns the same
canonical node without modifying the state. -/
theorem appendLoopNS_idem (s : ConfigSet) (bl : Nat) (pfx : Option Nat) (i : Nat)
    (elts : List Nat) :
    ((s.appendLoopNS bl pfx i elts).2.appendLoopNS bl pfx i elts) =
      s.appendLoopNS bl pfx i elts := by
  induction elts generalizing s pfx i with
  | nil => simp [ConfigSet.appendLoopNS]
  | cons elt rest ih =>
    cases h : alookup s.tuples (pfx, elt) with
    | some c =>
      have hrun : s.appendLoopNS bl pfx i (elt :: rest) =
          s.appendLoopNS bl (some c) (i + 1) rest := by
        simp [ConfigSet.appendLoopNS, h]
      have hstable : alookup (s.appendLoopNS bl (some c) (i + 1) rest).2.tuples (pfx, elt) =
          some c := by
        rw [appendLoopNS_stable s bl (some c) (i + 1) rest (pfx, elt) (by simp [h])]
        exact h
      rw [hrun]
      conv in ConfigSet.appendLoopNS _ bl pfx i (elt :: rest) =>
        rw [ConfigSet.appendLoopNS]
      simp only [hstable]
      exact ih s (some c) (i + 1)
    | none =>
      set s1 : ConfigSet :=
        { s with arena := s.arena ++ [.tup pfx elt (bl + i + 1)],
                 tuples := ((pfx, elt), s.arena.length) :: s.tuples } with hs1
      have hrun : s.appendLoopNS bl pfx i (elt :: rest) =
          s1.appendLoopNS bl (some s.arena.length) (i + 1) rest := by
        simp [ConfigSet.appendLoopNS, h, hs1]
      have hbound : alookup s1.tuples (pfx, elt) = some s.arena.length := by
        simp [hs1, alookup]
      have hstable :
          alookup (s1.appendLoopNS bl (some s.arena.length) (i + 1) rest).2.tuples (pfx, elt) =
          some s.arena.length := by
        rw [appendLoopNS_stable s1 bl (some s.arena.length) (i + 1) rest (pfx, elt)
          (by simp [hbound])]
        exact hbound
      rw [hrun]
      conv in ConfigSet.appendLoopNS _ bl pfx i (elt :: rest) =>
        rw [ConfigSet.appendLoopNS]
      simp only [hstable]
      exact ih s1 (some s.arena.length) (i + 1)

/-- After the first canonicalization miss, every table key's prefix differs
from the freshly created node, so the skipped lookups could never hit:
the `found=false` phase of `Append` coincides with the no-skip loop. -/
theorem appendLoop_false_eq_NS (s : ConfigSet) (bl : Nat) (p : Nat) (i : Nat)
    (elts : List Nat) (hW : s.WFt) (htop : p + 1 = s.arena.length)
    (hfresh : ∀ k c, (k, c) ∈ s.tuples → k.1 ≠ some p) :
    s.appendLoop bl (some p) false i elts = s.appendLoopNS bl (some p) i elts := by
  induction elts generalizing s p i with
  | nil => simp [ConfigSet.appendLoop, ConfigSet.appendLoopNS]
  | cons elt rest ih =>
    have hnone : alookup s.tuples (some p, elt) = none := by
      apply alookup_eq_none_of_forall
      intro e he hke
      exact hfresh e.1 e.2 (by simpa using he) (by rw [hke])
    set s1 : ConfigSet :=
      { s with arena := s.arena ++ [.tup (some p) elt (bl + i + 1)],
               tuples := ((some p, elt), s.arena.length) :: s.tuples } with hs1
    have hW1 : s1.WFt := by
      intro k c hk
      simp only [hs1, List.mem_cons] at hk
      rcases hk with hk | hk
      · cases hk
        constructor
        · intro q hq
          cases hq
          simp only [hs1, List.length_append, List.length_cons]
          omega
        · simp only [hs1, List.length_append, List.length_cons]
          omega
      · obtain ⟨h1, h2⟩ := hW k c hk
        constructor
        · intro q hq
          have := h1 q hq
          simp only [hs1, List.length_append, List.length_cons]
          omega
        · simp only [hs1, List.length_append, List.length_cons]
          omega
    have htop1 : s.arena.length + 1 = s1.arena.length := by
      simp [hs1]
    have hfresh1 : ∀ k c, (k, c) ∈ s1.tuples → k.1 ≠ some s.arena.length := by
      intro k c hk
      simp only [hs1, List.mem_cons] at hk
      rcases hk with hk | hk
      · cases hk
        intro hq
        cases hq
        omega
      · intro hq
        have := (hW k c hk).1 s.arena.length hq
        omega
    simp only [ConfigSet.appendLoop, ConfigSet.appendLoopNS, hnone]
    exact ih s1 s.arena.length (i + 1) hW1 htop1 hfresh1

/-- On a well-formed ConfigSet, `Append`'s lookup-skipping loop computes
exactly what the always-looking-up loop computes. -/
theorem appendLoop_true_eq_NS (s : ConfigSet) (bl : Nat) (pfx : Option Nat) (i : Nat)
    (elts : List Nat) (hW : s.WFt) (hok : okPfx s pfx) :
    s.appendLoop bl pfx true i elts = s.appendLoopNS bl pfx i elts := by
  induction elts generalizing s pfx i with
  | nil => simp [ConfigSet.appendLoop, ConfigSet.appendLoopNS]
  | cons elt rest ih =>
    cases h : alookup s.tuples (pfx, elt) with
    | some c =>
      have hc : c < s.arena.length := (hW (pfx, elt) c (alookup_mem _ _ _ h)).2
      simp only [ConfigSet.appendLoop, ConfigSet.appendLoopNS, h]
      exact ih s (some c) (i + 1) hW (by intro q hq; cases hq; exact hc)
    | none =>
      set s1 : ConfigSet :=
        { s with arena := s.arena ++ [.tup pfx elt (bl + i + 1)],
                 tuples := ((pfx, elt), s.arena.length) :: s.tuples } with hs1
      have hW1 : s1.WFt := by
        intro k c hk
        simp only [hs1, List.mem_cons] at hk
        rcases hk with hk | hk
        · cases hk
          constructor
          · intro q hq
            have := hok q hq
            simp only [hs1, List.length_append, List.length_cons]
            omega
          · simp only [hs1, List.length_append, List.length_cons]
            omega
        · obtain ⟨h1, h2⟩ := hW k c hk
          constructor
          · intro q hq
            have := h1 q hq
            simp only [hs1, List.length_append, List.length_cons]
            omega
          · simp only [hs1, List.length_append, List.length_cons]
            omega
      have htop1 : s.arena.length + 1 = s1.arena.length := by simp [hs1]
      have hfresh1 : ∀ k c, (k, c) ∈ s1.tuples → k.1 ≠ some s.arena.length := by
        intro k c hk
        simp only [hs1, List.mem_cons] at hk
        rcases hk with hk | hk
        · cases hk
          intro hq
          have := hok s.arena.length hq
          omega
        · intro hq
          have := (hW k c hk).1 s.arena.length hq
          omega
      simp only [ConfigSet.appendLoop, ConfigSet.appendLoopNS, h]
      exact appendLoop_false_eq_NS s1 bl s.arena.length (i + 1) rest hW1 htop1 hfresh1

/-- The no-skip loop preserves well-formedness and returns a valid node. -/
theorem appendLoopNS_WFt (s : ConfigSet) (bl : Nat) (pfx : Option Nat) (i : Nat)
    (elts : List Nat) (hW : s.WFt) (hok : okPfx s pfx) :
    (s.appendLoopNS bl pfx i elts).2.WFt ∧
      okPfx (s.appendLoopNS bl pfx i elts).2 (s.appendLoopNS bl pfx i elts).1 := by
  induction elts generalizing s pfx i with
  | nil => exact ⟨hW, hok⟩
  | cons elt rest ih =>
    cases h : alookup s.tuples (pfx, elt) with
    | some c =>
      have hc : c < s.arena.length := (hW (pfx, elt) c (alookup_mem _ _ _ h)).2
      simp only [ConfigSet.appendLoopNS, h]
      exact ih s (some c) (i + 1) hW (by intro q hq; cases hq; exact hc)
    | none =>
      set s1 : ConfigSet :=
        { s with arena := s.arena ++ [.tup pfx elt (bl + i + 1)],
                 tuples := ((pfx, elt), s.arena.length) :: s.tuples } with hs1
      have hW1 : s1.WFt := by
        intro k c hk
        simp only [hs1, List.mem_cons] at hk
        rcases hk with hk | hk
        · cases hk
          constructor
          · intro q hq
            have := hok q hq
            simp only [hs1, List.length_append, List.length_cons]
            omega
          · simp only [hs1, List.length_append, List.length_cons]
            omega
        · obtain ⟨h1, h2⟩ := hW k c hk
          constructor
          · intro q hq
            have := h1 q hq
            simp only [hs1, List.length_append, List.length_cons]
            omega
          · simp only [hs1, List.length_append, List.length_cons]
            omega
      have hok1 : okPfx s1 (some s.arena.length) := by
        intro q hq
        cases hq
        simp [hs1]
      simp only [ConfigSet.appendLoopNS, h]
      exact ih s1 (some s.arena.length) (i + 1) hW1 hok1

/-- `lenOf` is stable under arena extension for valid bases. -/
theorem lenOf_stable (s : ConfigSet) (s' : ConfigSet) (base : Option Nat)
    (hok : okPfx s base) (hext : ∃ ext, s'.arena = s.arena ++ ext) :
    s'.lenOf base = s.lenOf base := by
  cases base with
  | none => rfl
  | some b =>
    obtain ⟨ext, hext⟩ := hext
    have hb : b < s.arena.length := hok b rfl
    simp only [ConfigSet.lenOf, hext]
    rw [List.getElem?_append_left hb]

/-- C1. Hash-consing identity: repeated `ConfigSet.KeyVal(a,b)` calls return
the identical Config (and leave the set unchanged); for every element
sequence, re-running `Append` (hence `Tuple`) over the same base and
structurally equal elements returns the identical tuple Config; and the
lookup-skipping loop of `Append` computes exactly what the always-looking-up
loop would, so the skipped lookups can never hide an existing canonical
node. -/
theorem c1_hash_consing_identity :
    (∀ (s : ConfigSet) (a b : String),
       (s.keyVal a b).2.keyVal a b = s.keyVal a b) ∧
    (∀ (s : ConfigSet) (base : Option Nat) (elts : List Nat),
       s.WFt → okPfx s base →
       (s.appendGo base elts).2.appendGo base elts = s.appendGo base elts) ∧
    (∀ (s : ConfigSet) (base : Option Nat) (elts : List Nat),
       s.WFt → okPfx s base →
       s.appendGo base elts = s.appendLoopNS (s.lenOf base) base 0 elts) := by
  have hNS : ∀ (s : ConfigSet) (base : Option Nat) (elts : List Nat),
      s.WFt → okPfx s base →
      s.appendGo base elts = s.appendLoopNS (s.lenOf base) base 0 elts := by
    intro s base elts hW hok
    exact appendLoop_true_eq_NS s (s.lenOf base) base 0 elts hW hok
  refine ⟨?_, ?_, hNS⟩
  · intro s a b
    cases h : alookup s.kvs (a, b) with
    | some c => simp [ConfigSet.keyVal, h]
    | none =>
      simp only [ConfigSet.keyVal, h]
      simp [alookup]
  · intro s base elts hW hok
    have h1 : s.appendGo base elts = s.appendLoopNS (s.lenOf base) base 0 elts :=
      hNS s base elts hW hok
    set r := s.appendLoopNS (s.lenOf base) base 0 elts with hr
    have hWr : r.2.WFt ∧ okPfx r.2 r.1 := appendLoopNS_WFt s _ base 0 elts hW hok
    have hext : ∃ ext, r.2.arena = s.arena ++ ext := appendLoopNS_arena s _ base 0 elts
    have hokr : okPfx r.2 base := by
      intro p hp
      obtain ⟨ext, he⟩ := hext
      have := hok p hp
      simp [he, List.length_append]
      omega
    have hlen : r.2.lenOf base = s.lenOf base := lenOf_stable s r.2 base hok hext
    have h2 : r.2.appendGo base elts = r.2.appendLoopNS (r.2.lenOf base) base 0 elts :=
      hNS r.2 base elts hWr.1 hokr
    rw [h1, h2, hlen, hr]
    exact appendLoopNS_idem s _ base 0 elts

/-- Witness for C1 at a concrete input: the empty ConfigSet is well-formed
and appending `[0, 1]` to the empty tuple twice returns identical results. -/
theorem c1_hash_consing_identity_witness :
    (ConfigSet.empty.appendGo none [0, 1]).2.appendGo none [0, 1] =
      ConfigSet.empty.appendGo none [0, 1] := by
  have hW : ConfigSet.empty.WFt := by
    intro k c hk
    simp [ConfigSet.empty] at hk
  have hok : okPfx ConfigSet.empty none := by
    intro p hp
    cases hp
  exact c1_hash_consing_identity.2.1 ConfigSet.empty none [0, 1] hW hok

/-! ## Schema / projection (benchproc schema.go)

A `Schema` is modelled by its list of projection steps (static, built by
`ProjectionParser.makeProjection`) plus the mutable `SchemaState`: the
row buffer, the per-`.config`-closure `seen` maps (keyed by a group id,
since each `.config` projection closure owns its own map), the
observation-order maps, and the Config intern table. Hash buckets keyed
by `maphash` with an `equalRow` scan are modelled as content lookup on
the trimmed row, which has the same semantics for any deterministic
hash. `Schema.intern` (byte-to-string canonicalization) is the identity
here since Lean strings are values. -/

/-- A benchmark measurement (`benchfmt.Value`); the float64 payload is
carried opaquely (no arithmetic on it is performed by this engine). -/
structure BValue where
  value : Int
  unit : String
deriving DecidableEq, Repr

/-- A benchmark result (`benchfmt.Result`): the file configuration
key/value pairs, the full benchmark name and the measurements. -/
structure BResult where
  fileConfig : List (String × String)
  fullName : String
  values : List BValue
deriving DecidableEq, Repr

/-- One projection step of a Schema, as installed by `makeProjection`:
either a fixed field (a specific key or `.fullname`, with its extractor
closure and optional `key:(v1 v2 ...)` exact filter list), or a
`.config` group (with its exclusion set and whether its dynamically
added fields track first-observation order). `gid` identifies the
per-closure `seen` map of a group. -/
inductive ProjStep where
  | fixed (idx : Nat) (ext : BResult → String) (exact : Option (List String))
  | configGroup (gid : Nat) (excl : List String) (tracksFirst : Bool)

/-- The mutable part of a `Schema`. `rows` is the arena of interned
`configNode.vals` (a Config id is its index); `configs` is the intern
table from trimmed row to Config id. -/
structure SchemaState where
  nFields : Nat
  row : List String
  seens : List ((Nat × String) × Nat)
  orderedFields : List Nat
  orders : List (Nat × List String)
  configs : List (List String × Nat)
  rows : List (List String)
deriving DecidableEq, Repr

/-- `node.order[val] = len(node.order)` on first observation: append
`val` to field `idx`'s first-seen list if not yet present. -/
def registerVal : List (Nat × List String) → Nat → String → List (Nat × List String)
  | [], _, _ => []
  | (j, vs) :: rest, idx, val =>
    if j = idx then (j, if val ∈ vs then vs else vs ++ [val]) :: rest
    else (j, vs) :: registerVal rest idx val

/-- `internRow`'s observation-order update: for each order-tracking
field, record the row's value (absent indices read as empty). -/
def updateOrders : List Nat → List (Nat × List String) → List String →
    List (Nat × List String)
  | [], orders, _ => orders
  | idx :: rest, orders, tr => updateOrders rest (registerVal orders idx (tr.getD idx "")) tr

/-- Drop trailing empty strings from the row (`internRow`'s trim loop). -/
def trimRow (row : List String) : List String :=
  (row.reverse.dropWhile (fun v => v = "")).reverse

/-- The `.config` projection closure's loop over `r.FileConfig`: write
seen keys into the row at their assigned index, grow the schema by a new
field for a previously-unseen non-excluded key. -/
def configFold (gid : Nat) (excl : List String) (tracksFirst : Bool) :
    SchemaState → List (String × String) → SchemaState
  | st, [] => st
  | st, (k, v) :: rest =>
    match alookup st.seens (gid, k) with
    | some idx => configFold gid excl tracksFirst { st with row := st.row.set idx v } rest
    | none =>
      if k ∈ excl then configFold gid excl tracksFirst st rest
      else
        let idx := st.nFields
        let st' : SchemaState :=
          { st with nFields := st.nFields + 1,
                    seens := ((gid, k), idx) :: st.seens,
                    row := (st.row ++ [""]).set idx v,
                    orderedFields :=
                      if tracksFirst then st.orderedFields ++ [idx] else st.orderedFields,
                    orders := if tracksFirst then st.orders ++ [(idx, [])] else st.orders }
        configFold gid excl tracksFirst st' rest

/-- One projection closure: returns the updated state and whether the
record passed this projection's filter. -/
def runStep (st : SchemaState) (r : BResult) : ProjStep → SchemaState × Bool
  | .fixed idx ext exact =>
    let val := ext r
    match exact with
    | some list =>
      if val ∈ list then ({ st with row := st.row.set idx val }, true) else (st, false)
    | none => ({ st with row := st.row.set idx val }, true)
  | .configGroup gid excl tracksFirst => (configFold gid excl tracksFirst st r.fileConfig, true)

/-- Run the projection closures in order, stopping at the first filter
rejection (`populateRow`'s loop). -/
def runSteps (steps : List ProjStep) (st : SchemaState) (r : BResult) : SchemaState × Bool :=
  match steps with
  | [] => (st, true)
  | step :: rest =>
    let p := runStep st r step
    if p.2 then runSteps rest p.1 r else (p.1, false)

/-- `populateRow`: clear the row buffer, then run the projections. -/
def populateRow (steps : List ProjStep) (st : SchemaState) (r : BResult) :
    SchemaState × Bool :=
  runSteps steps { st with row := List.replicate st.nFields "" } r

/-- `internRow`: trim trailing empties, look the row up in the intern
table; on a miss, update the observation orders and intern a copy. -/
def internRow (st : SchemaState) : Nat × SchemaState :=
  let tr := trimRow st.row
  match alookup st.configs tr with
  | some c => (c, st)
  | none =>
    let st1 : SchemaState := { st with orders := updateOrders st.orderedFields st.orders tr }
    let c := st1.rows.length
    (c, { st1 with configs := (tr, c) :: st1.configs, rows := st1.rows ++ [tr] })

/-- `Schema.Project`: `(some config, st, true)` on success, or
`(none, st, false)` when a `key:(list)` projection filtered the record
out (no Config is interned in that case). -/
def project (steps : List ProjStep) (st : SchemaState) (r : BResult) :
    Option Nat × SchemaState × Bool :=
  let p := populateRow steps st r
  if p.2 then
    let q := internRow p.1
    (some q.1, q.2, true)
  else (none, p.1, false)

/-- `Config.Get`: read field `idx` of a Config's stored values; indices
at or beyond the (trailing-trimmed) value slice read as empty. -/
def configGet (vals : List String) (idx : Nat) : String :=
  if idx < vals.length then vals.getD idx "" else ""

/-- A projection step rejects record `r` when it is a `key:(v1 v2 ...)`
component whose extracted value for `r` is absent from the list. -/
def stepRejects (r : BResult) : ProjStep → Prop
  | .fixed _ ext (some list) => ext r ∉ list
  | _ => False

/-- `runStep` never touches the intern table or the Config arena. -/
theorem runStep_configs_rows (st : SchemaState) (r : BResult) (step : ProjStep) :
    (runStep st r step).1.configs = st.configs ∧ (runStep st r step).1.rows = st.rows := by
  cases step with
  | fixed idx ext exact =>
    cases exact with
    | none => exact ⟨rfl, rfl⟩
    | some list =>
      by_cases h : ext r ∈ list <;> simp [runStep, h]
  | configGroup gid excl tracksFirst =>
    simp only [runStep]
    induction r.fileConfig generalizing st with
    | nil => exact ⟨rfl, rfl⟩
    | cons kv rest ih =>
      obtain ⟨k, v⟩ := kv
      cases h : alookup st.seens (gid, k) with
      | some idx => simpa [configFold, h] using ih _
      | none =>
        by_cases he : k ∈ excl
        · simpa [configFold, h, he] using ih _
        · simpa [configFold, h, he] using ih _

/-- `runSteps` never touches the intern table or the Config arena. -/
theorem runSteps_configs_rows (steps : List ProjStep) (st : SchemaState) (r : BResult) :
    (runSteps steps st r).1.configs = st.configs ∧ (runSteps steps st r).1.rows = st.rows := by
  induction steps generalizing st with
  | nil => exact ⟨rfl, rfl⟩
  | cons step rest ih =>
    have h1 := runStep_configs_rows st r step
    by_cases h : (runStep st r step).2
    · have := ih (runStep st r step).1
      simp only [runSteps, h, if_true]
      exact ⟨this.1.trans h1.1, this.2.trans h1.2⟩
    · simp only [runSteps, h, if_false]
      exact h1

/-- One step's pass/fail is determined by the record alone. -/
theorem runStep_false_iff (st : SchemaState) (r : BResult) (step : ProjStep) :
    (runStep st r step).2 = false ↔ stepRejects r step := by
  cases step with
  | fixed idx ext exact =>
    cases exact with
    | none => simp [runStep, stepRejects]
    | some list =>
      by_cases h : ext r ∈ list <;> simp [runStep, stepRejects, h]
  | configGroup gid excl tracksFirst => simp [runStep, stepRejects]

/-- The projection loop fails exactly when some step rejects the record. -/
theorem runSteps_false_iff (steps : List ProjStep) (st : SchemaState) (r : BResult) :
    (runSteps steps st r).2 = false ↔ ∃ step ∈ steps, stepRejects r step := by
  induction steps generalizing st with
  | nil => simp [runSteps]
  | cons step rest ih =>
    by_cases h : (runStep st r step).2
    · have hnr : ¬ stepRejects r step := by
        rw [← runStep_false_iff st r step]
        simp [h]
      simp only [runSteps, h, if_true]
      rw [ih]
      constructor
      · rintro ⟨s, hs, hrej⟩
        exact ⟨s, List.mem_cons_of_mem _ hs, hrej⟩
      · rintro ⟨s, hs, hrej⟩
        rcases List.mem_cons.mp hs with heq | hmem
        · subst heq; exact absurd hrej hnr
        · exact ⟨s, hmem, hrej⟩
    · have hr : stepRejects r step := by
        rw [← runStep_false_iff st r step]
        simp [h]
      simp only [runSteps, h, if_false]
      exact iff_of_true rfl ⟨step, List.mem_cons_self _ _, hr⟩

/-- C8. Exact-list projection filtering: `Project` returns
`(zero Config, false)` exactly when some `key:(v1 v2 ...)` component's
extracted value for the record is absent from its listed values; the
rejection is a plain boolean signal and no Config is interned (the intern
table and the Config arena are untouched). -/
theorem c8_exact_list_filtering (steps : List ProjStep) (st : SchemaState) (r : BResult) :
    ((project steps st r).1 = none ∧ (project steps st r).2.2 = false ↔
       ∃ step ∈ steps, stepRejects r step) ∧
    ((project steps st r).2.2 = false →
       (project steps st r).2.1.configs = st.configs ∧
       (project steps st r).2.1.rows = st.rows) := by
  have hiff := runSteps_false_iff steps { st with row := List.replicate st.nFields "" } r
  have hcr := runSteps_configs_rows steps { st with row := List.replicate st.nFields "" } r
  by_cases h : (populateRow steps st r).2
  · have hfalse : ¬ ∃ step ∈ steps, stepRejects r step := by
      rw [← hiff]
      simpa [populateRow] using h
    constructor
    · simp only [project, h, if_true]
      exact iff_of_false (by simp) hfalse
    · intro hc
      simp only [project, h, if_true] at hc
      cases hc
  · have htrue : ∃ step ∈ steps, stepRejects r step := by
      rw [← hiff]
      simpa [populateRow] using h
    constructor
    · simp only [project, h, if_false]
      exact iff_of_true ⟨rfl, rfl⟩ htrue
    · intro _
      simp only [project, h, if_false]
      exact ⟨by simpa [populateRow] using hcr.1, by simpa [populateRow] using hcr.2⟩

/-- Witness for C8: a schema with the single component `n:(x)` rejects a
record whose extracted value is `y`, returning no Config and leaving the
intern table empty. -/
theorem c8_exact_list_filtering_witness :
    ∃ step ∈ [ProjStep.fixed 0 (fun r => r.fullName) (some ["x"])],
      stepRejects (BResult.mk [] "y" []) step := by
  have h := c8_exact_list_filtering [ProjStep.fixed 0 (fun r => r.fullName) (some ["x"])]
    (SchemaState.mk 1 [""] [] [] [] [] []) (BResult.mk [] "y" [])
  apply h.1.mp
  constructor <;> rfl

/-- C10. Total Config reads: `Config.Get` on a field whose index lies at
or beyond the stored (trailing-empty-trimmed) value slice returns the
empty string; reading any index is the padded-row value, and in
particular every config produced by a successful `Project` can be read
at every field index, old or newly grown, without failure. -/
theorem c10_config_get_total :
    (∀ (vals : List String) (idx : Nat), vals.length ≤ idx → configGet vals idx = "") ∧
    (∀ (vals : List String) (idx : Nat), configGet vals idx = vals.getD idx "") ∧
    (∀ (steps : List ProjStep) (st : SchemaState) (r : BResult) (c : Nat)
       (st' : SchemaState), project steps st r = (some c, st', true) →
       ∀ idx : Nat, (st'.rows.getD c []).length ≤ idx →
         configGet (st'.rows.getD c []) idx = "") := by
  have h1 : ∀ (vals : List String) (idx : Nat), vals.length ≤ idx → configGet vals idx = "" := by
    intro vals idx h
    simp [configGet, Nat.not_lt.mpr h]
  refine ⟨h1, ?_, ?_⟩
  · intro vals idx
    by_cases h : idx < vals.length
    · simp [configGet, h]
    · rw [h1 vals idx (Nat.not_lt.mp h)]
      rw [List.getD_eq_default]
      omega
  · intro steps st r c st' _ idx hlen
    exact h1 _ idx hlen

/-- Witness for C10 at a concrete input: reading index 3 of a 1-element
value slice returns the empty string. -/
theorem c10_config_get_total_witness :
    configGet ["a"] 3 = "" :=
  c10_config_get_total.1 ["a"] 3 (by decide)

/-! ### Schema growth invariance (C2) -/

/-- Pad a row with trailing empties up to length `n`. -/
def pad (x : List String) (n : Nat) : List String :=
  x ++ List.replicate (n - x.length) ""

/-- Basic state invariant of a Schema: the row buffer has one slot per
field and every `seen` map entry points at an existing field. -/
def stInv (st : SchemaState) : Prop :=
  st.row.length = st.nFields ∧ ∀ k idx, (k, idx) ∈ st.seens → idx < st.nFields

theorem set_append_left {α : Type} (x y : List α) (i : Nat) (v : α) (h : i < x.length) :
    (x ++ y).set i v = x.set i v ++ y := by
  induction x generalizing i with
  | nil => cases h
  | cons a as ih =>
    cases i with
    | zero => rfl
    | succ j =>
      simp only [List.cons_append, List.set, List.append_eq]
      rw [ih j (by simpa using h)]

theorem set_append_at {α : Type} (x y : List α) (v : α) :
    (x ++ y).set x.length v = x ++ y.set 0 v := by
  induction x with
  | nil => rfl
  | cons a as ih =>
    simp only [List.cons_append, List.length_cons, List.set, List.append_eq]
    rw [ih]

theorem pad_set (x : List String) (n i : Nat) (v : String) (h : i < x.length) :
    (pad x n).set i v = pad (x.set i v) n := by
  simp only [pad]
  rw [set_append_left _ _ _ _ h]
  simp

theorem pad_snoc (x : List String) (n : Nat) (v : String) (h : x.length < n) :
    (pad x n).set x.length v = pad ((x ++ [""]).set x.length v) n := by
  have h1 : (x ++ [""]).set x.length v = x ++ [v] := set_append_at x [""] v
  rw [h1]
  simp only [pad]
  rw [set_append_at]
  have h2 : n - x.length = (n - (x ++ [v]).length) + 1 := by
    simp only [List.length_append, List.length_singleton]
    omega
  rw [h2, List.replicate_succ]
  simp

theorem pad_replicate (n0 n : Nat) (h : n0 ≤ n) :
    pad (List.replicate n0 ("" : String)) n = List.replicate n "" := by
  simp only [pad, List.length_replicate]
  rw [← List.replicate_add]
  congr 1
  omega

theorem pad_of_self (x : List String) : pad x x.length = x := by
  simp [pad]

theorem dropWhile_replicate_append (m : Nat) (l : List String) :
    (List.replicate m "" ++ l).dropWhile (fun v => v = "") =
      l.dropWhile (fun v => v = "") := by
  induction m with
  | zero => rfl
  | succ k ih =>
    rw [List.replicate_succ]
    simp only [List.cons_append, List.dropWhile]
    simp only [List.append_eq, ih, decide_True, if_true]

theorem trim_pad (x : List String) (n : Nat) : trimRow (pad x n) = trimRow x := by
  simp only [trimRow, pad, List.reverse_append, List.reverse_replicate]
  rw [dropWhile_replicate_append]

/-- `configFold` preserves the state invariant and only grows the field
count. -/
theorem configFold_inv (gid : Nat) (excl : List String) (tf : Bool) (cfgs : List (String × String))
    (st : SchemaState) (h : stInv st) :
    stInv (configFold gid excl tf st cfgs) ∧
      st.nFields ≤ (configFold gid excl tf st cfgs).nFields := by
  induction cfgs generalizing st with
  | nil => exact ⟨h, Nat.le_refl _⟩
  | cons kv rest ih =>
    obtain ⟨k, v⟩ := kv
    cases hl : alookup st.seens (gid, k) with
    | some idx =>
      simp only [configFold, hl]
      have h1 : stInv { st with row := st.row.set idx v } :=
        ⟨by simpa using h.1, h.2⟩
      exact (ih _ h1)
    | none =>
      by_cases he : k ∈ excl
      · simp only [configFold, hl, if_pos he]
        exact ih _ h
      · simp only [configFold, hl, if_neg he]
        set st1 : SchemaState :=
          { st with nFields := st.nFields + 1,
                    seens := ((gid, k), st.nFields) :: st.seens,
                    row := (st.row ++ [""]).set st.nFields v,
                    orderedFields :=
                      if tf then st.orderedFields ++ [st.nFields] else st.orderedFields,
                    orders := if tf then st.orders ++ [(st.nFields, [])] else st.orders }
          with hst1
        have hn1 : st1.nFields = st.nFields + 1 := rfl
        have h1 : stInv st1 := by
          constructor
          · simp [hst1, h.1]
          · intro k' idx' hk'
            have hk2 : (k', idx') ∈ ((gid, k), st.nFields) :: st.seens := hk'
            rw [hn1]
            rcases List.mem_cons.mp hk2 with heq | hmem
            · cases heq; omega
            · exact Nat.lt_succ_of_lt (h.2 k' idx' hmem)
        have h2 := ih _ h1
        refine ⟨h2.1, ?_⟩
        have h3 := h2.2
        rw [hn1] at h3
        omega

/-- `runStep` preserves the state invariant and only grows the field
count.  It also never touches `seens` except through `configFold`. -/
theorem runStep_inv (st : SchemaState) (r : BResult) (step : ProjStep) (h : stInv st) :
    stInv (runStep st r step).1 ∧ st.nFields ≤ (runStep st r step).1.nFields := by
  cases step with
  | fixed idx ext exact =>
    cases exact with
    | none =>
      simp only [runStep]
      exact ⟨⟨by simpa using h.1, h.2⟩, Nat.le_refl _⟩
    | some list =>
      by_cases hm : ext r ∈ list
      · simp only [runStep, if_pos hm]
        exact ⟨⟨by simpa using h.1, h.2⟩, Nat.le_refl _⟩
      · simp only [runStep, if_neg hm]
        exact ⟨h, Nat.le_refl _⟩
  | configGroup gid excl tf => exact configFold_inv gid excl tf r.fileConfig st h

/-- `runSteps` preserves the state invariant and only grows the field
count. -/
theorem runSteps_inv (steps : List ProjStep) (st : SchemaState) (r : BResult) (h : stInv st) :
    stInv (runSteps steps st r).1 ∧ st.nFields ≤ (runSteps steps st r).1.nFields := by
  induction steps generalizing st with
  | nil => exact ⟨h, Nat.le_refl _⟩
  | cons step rest ih =>
    have h1 := runStep_inv st r step h
    by_cases hp : (runStep st r step).2
    · simp only [runSteps, hp, if_true]
      have := ih _ h1.1
      exact ⟨this.1, Nat.le_trans h1.2 this.2⟩
    · simp only [runSteps, hp, if_false]
      exact h1

/-- `internRow` does not change the row buffer, the field count or the
`seen` maps. -/
theorem internRow_frame (st : SchemaState) :
    (internRow st).2.row = st.row ∧ (internRow st).2.nFields = st.nFields ∧
      (internRow st).2.seens = st.seens := by
  cases h : alookup st.configs (trimRow st.row) with
  | some c => simp [internRow, h]
  | none => simp [internRow, h]

/-- Lookups already bound in a `seen` map are preserved (with their
value) by `configFold`. -/
theorem configFold_seens_stable (gid : Nat) (excl : List String) (tf : Bool)
    (cfgs : List (String × String)) (st : SchemaState) (key : Nat × String)
    (h : (alookup st.seens key).isSome) :
    alookup (configFold gid excl tf st cfgs).seens key = alookup st.seens key := by
  induction cfgs generalizing st with
  | nil => rfl
  | cons kv rest ih =>
    obtain ⟨k, v⟩ := kv
    cases hl : alookup st.seens (gid, k) with
    | some idx =>
      simp only [configFold, hl]
      exact ih _ h
    | none =>
      by_cases he : k ∈ excl
      · simp only [configFold, hl, if_pos he]
        exact ih _ h
      · simp only [configFold, hl, if_neg he]
        have hne : (gid, k) ≠ key := by
          intro heq
          rw [heq] at hl
          rw [hl] at h
          cases h
        set st1 : SchemaState :=
          { st with nFields := st.nFields + 1,
                    seens := ((gid, k), st.nFields) :: st.seens,
                    row := (st.row ++ [""]).set st.nFields v,
                    orderedFields :=
                      if tf then st.orderedFields ++ [st.nFields] else st.orderedFields,
                    orders := if tf then st.orders ++ [(st.nFields, [])] else st.orders }
          with hst1
        have hseens : st1.seens = ((gid, k), st.nFields) :: st.seens := rfl
        have h1 : alookup st1.seens key = alookup st.seens key := by
          rw [hseens]
          simp [alookup, if_neg hne]
        rw [ih st1 (by rw [h1]; exact h), h1]

/-- Lookups already bound in a `seen` map are preserved by `runStep`. -/
theorem runStep_seens_stable (st : SchemaState) (r : BResult) (step : ProjStep)
    (key : Nat × String) (h : (alookup st.seens key).isSome) :
    alookup (runStep st r step).1.seens key = alookup st.seens key := by
  cases step with
  | fixed idx ext exact =>
    cases exact with
    | none => rfl
    | some list =>
      by_cases hm : ext r ∈ list <;> simp [runStep, hm]
  | configGroup gid excl tf => exact configFold_seens_stable gid excl tf r.fileConfig st key h

/-- Lookups already bound in a `seen` map are preserved by `runSteps`. -/
theorem runSteps_seens_stable (steps : List ProjStep) (st : SchemaState) (r : BResult)
    (key : Nat × String) (h : (alookup st.seens key).isSome) :
    alookup (runSteps steps st r).1.seens key = alookup st.seens key := by
  induction steps generalizing st with
  | nil => rfl
  | cons step rest ih =>
    have h1 := runStep_seens_stable st r step key h
    by_cases hp : (runStep st r step).2
    · simp only [runSteps, hp, if_true]
      rw [ih _ (by rw [h1]; exact h), h1]
    · simp only [runSteps, hp, if_false]
      exact h1

/-- Bound intern-table entries are preserved (with their value) by
`internRow`. -/
theorem internRow_configs_stable (st : SchemaState) (key : List String)
    (h : (alookup st.configs key).isSome) :
    alookup (internRow st).2.configs key = alookup st.configs key := by
  cases hl : alookup st.configs (trimRow st.row) with
  | some c => simp [internRow, hl]
  | none =>
    have hne : trimRow st.row ≠ key := by
      intro heq
      rw [heq] at hl
      rw [hl] at h
      cases h
    simp [internRow, hl, alookup, if_neg hne]

/-- Bound intern-table entries are preserved (with their value) by a
whole `Project` call. -/
theorem project_configs_stable (steps : List ProjStep) (st : SchemaState) (r : BResult)
    (key : List String) (h : (alookup st.configs key).isSome) :
    alookup (project steps st r).2.1.configs key = alookup st.configs key := by
  have hp := runSteps_configs_rows steps { st with row := List.replicate st.nFields "" } r
  by_cases hb : (populateRow steps st r).2
  · simp only [project, hb, if_true]
    have h1 : (populateRow steps st r).1.configs = st.configs := by
      simpa [populateRow] using hp.1
    rw [internRow_configs_stable _ key (by rw [h1]; exact h), h1]
  · have h1 : (populateRow steps st r).1.configs = st.configs := by
      simpa [populateRow] using hp.1
    simp only [project, hb, Bool.false_eq_true, if_false, h1]

/-- `Project` preserves bound `seen` entries. -/
theorem project_seens_stable (steps : List ProjStep) (st : SchemaState) (r : BResult)
    (key : Nat × String) (h : (alookup st.seens key).isSome) :
    alookup (project steps st r).2.1.seens key = alookup st.seens key := by
  have hs := runSteps_seens_stable steps { st with row := List.replicate st.nFields "" } r key h
  by_cases hb : (populateRow steps st r).2
  · simp only [project, hb, if_true]
    have hf := internRow_frame (populateRow steps st r).1
    rw [hf.2.2]
    simpa [populateRow] using hs
  · simp only [project, hb, if_false]
    simpa [populateRow] using hs

/-- `configFold` for group `gid'` never binds `(gid, k)` when `gid' ≠ gid`
or when `k` is in the group's exclusion list. -/
theorem configFold_none_stable (gid' : Nat) (excl : List String) (tf : Bool)
    (cfgs : List (String × String)) (st : SchemaState) (gid : Nat) (k : String)
    (hcase : gid' ≠ gid ∨ k ∈ excl) (h : alookup st.seens (gid, k) = none) :
    alookup (configFold gid' excl tf st cfgs).seens (gid, k) = none := by
  induction cfgs generalizing st with
  | nil => exact h
  | cons kv rest ih =>
    obtain ⟨k', v⟩ := kv
    cases hl : alookup st.seens (gid', k') with
    | some idx =>
      simp only [configFold, hl]
      exact ih _ h
    | none =>
      by_cases he : k' ∈ excl
      · simp only [configFold, hl, if_pos he]
        exact ih _ h
      · simp only [configFold, hl, if_neg he]
        have hne : (gid', k') ≠ (gid, k) := by
          rcases hcase with hg | hk
          · intro heq
            exact hg (congrArg Prod.fst heq)
          · intro heq
            exact he (by rw [show k' = k from congrArg Prod.snd heq]; exact hk)
        set st1 : SchemaState :=
          { st with nFields := st.nFields + 1,
                    seens := ((gid', k'), st.nFields) :: st.seens,
                    row := (st.row ++ [""]).set st.nFields v,
                    orderedFields :=
                      if tf then st.orderedFields ++ [st.nFields] else st.orderedFields,
                    orders := if tf then st.orders ++ [(st.nFields, [])] else st.orders }
          with hst1
        have h1 : alookup st1.seens (gid, k) = none := by
          have hseens : st1.seens = ((gid', k'), st.nFields) :: st.seens := rfl
          rw [hseens, alookup_cons, if_neg hne]
          exact h
        exact ih st1 h1

/-- `k` is excluded by every `.config` group of `steps` that carries
group id `gid`. -/
def gidExcl (steps : List ProjStep) (gid : Nat) (k : String) : Prop :=
  ∀ excl tf, ProjStep.configGroup gid excl tf ∈ steps → k ∈ excl

/-- `runSteps` never binds `(gid, k)` when `k` is excluded by every group
with id `gid`. -/
theorem runSteps_none_stable (steps : List ProjStep) (st : SchemaState) (r : BResult)
    (gid : Nat) (k : String) (hx : gidExcl steps gid k)
    (h : alookup st.seens (gid, k) = none) :
    alookup (runSteps steps st r).1.seens (gid, k) = none := by
  induction steps generalizing st with
  | nil => exact h
  | cons step rest ih =>
    have hx' : gidExcl rest gid k := fun excl tf hm => hx excl tf (List.mem_cons_of_mem _ hm)
    have h1 : alookup (runStep st r step).1.seens (gid, k) = none := by
      cases step with
      | fixed idx ext exact =>
        cases exact with
        | none => exact h
        | some list =>
          by_cases hm : ext r ∈ list <;> simp [runStep, hm, h]
      | configGroup gid' excl tf =>
        by_cases hg : gid' = gid
        · subst hg
          exact configFold_none_stable gid' excl tf r.fileConfig st gid' k
            (Or.inr (hx excl tf (List.mem_cons_self _ _))) h
        · exact configFold_none_stable gid' excl tf r.fileConfig st gid k (Or.inl hg) h
    by_cases hp : (runStep st r step).2
    · simp only [runSteps, hp, if_true]
      exact ih _ hx' h1
    · simp only [runSteps, hp, if_false]
      exact h1

/-- After a completed `configFold`, every non-excluded file key of the
record is bound in the group's `seen` map. -/
theorem configFold_coverage (gid : Nat) (excl : List String) (tf : Bool)
    (cfgs : List (String × String)) (st : SchemaState) :
    ∀ k1 v1, (k1, v1) ∈ cfgs → k1 ∉ excl →
      (alookup (configFold gid excl tf st cfgs).seens (gid, k1)).isSome := by
  induction cfgs generalizing st with
  | nil => intro k1 v1 hkv; cases hkv
  | cons kv0 rest ih =>
    obtain ⟨k, v⟩ := kv0
    intro k1 v1 hkv hne
    cases hl : alookup st.seens (gid, k) with
    | some idx =>
      simp only [configFold, hl]
      rcases List.mem_cons.mp hkv with heq | hmem
      · have hk1 : k1 = k := (Prod.mk.injEq _ _ _ _ |>.mp heq).1
        have hst : (alookup ({ st with row := st.row.set idx v } : SchemaState).seens
            (gid, k1)).isSome := by
          have hv : alookup st.seens (gid, k1) = some idx := by rw [hk1]; exact hl
          simp only [show ({ st with row := st.row.set idx v } : SchemaState).seens = st.seens
            from rfl, hv, Option.isSome_some]
        rw [configFold_seens_stable gid excl tf rest _ _ hst]
        exact hst
      · exact ih _ k1 v1 hmem hne
    | none =>
      by_cases he : k ∈ excl
      · simp only [configFold, hl, if_pos he]
        rcases List.mem_cons.mp hkv with heq | hmem
        · have hk1 : k1 = k := (Prod.mk.injEq _ _ _ _ |>.mp heq).1
          exact absurd (hk1 ▸ he) hne
        · exact ih _ k1 v1 hmem hne
      · simp only [configFold, hl, if_neg he]
        set st1 : SchemaState :=
          { st with nFields := st.nFields + 1,
                    seens := ((gid, k), st.nFields) :: st.seens,
                    row := (st.row ++ [""]).set st.nFields v,
                    orderedFields :=
                      if tf then st.orderedFields ++ [st.nFields] else st.orderedFields,
                    orders := if tf then st.orders ++ [(st.nFields, [])] else st.orders }
          with hst1
        rcases List.mem_cons.mp hkv with heq | hmem
        · have hk1 : k1 = k := (Prod.mk.injEq _ _ _ _ |>.mp heq).1
          have hsome : (alookup st1.seens (gid, k1)).isSome := by
            have hseens : st1.seens = ((gid, k), st.nFields) :: st.seens := rfl
            rw [hseens, hk1, alookup_cons, if_pos rfl]
            rfl
          rw [configFold_seens_stable gid excl tf rest _ _ hsome]
          exact hsome
        · exact ih st1 k1 v1 hmem hne

/-- After a completed projection run, every non-excluded file key of the
record is bound in every group's `seen` map. -/
theorem runSteps_coverage (steps : List ProjStep) (st : SchemaState) (r : BResult)
    (t : SchemaState) (hrun : runSteps steps st r = (t, true)) :
    ∀ gid excl tf, ProjStep.configGroup gid excl tf ∈ steps →
      ∀ k1 v1, (k1, v1) ∈ r.fileConfig → k1 ∉ excl →
        (alookup t.seens (gid, k1)).isSome := by
  induction steps generalizing st with
  | nil =>
    intro gid excl tf hm
    cases hm
  | cons step rest ih =>
    intro gid excl tf hm k1 v1 hkv hne
    by_cases hp : (runStep st r step).2
    · have hrest : runSteps rest (runStep st r step).1 r = (t, true) := by
        simpa [runSteps, hp] using hrun
      rcases List.mem_cons.mp hm with heq | hmem
      · have hcov := configFold_coverage gid excl tf r.fileConfig st k1 v1 hkv hne
        have h2 : (alookup (runStep st r step).1.seens (gid, k1)).isSome := by
          rw [← heq]
          exact hcov
        have hstab := runSteps_seens_stable rest (runStep st r step).1 r (gid, k1) h2
        have hfst : (runSteps rest (runStep st r step).1 r).1 = t := by rw [hrest]
        rw [hfst] at hstab
        rw [hstab]
        exact h2
      · exact ih _ hrest gid excl tf hmem k1 v1 hkv hne
    · simp only [runSteps, hp, if_false] at hrun
      cases hrun

/-- The group ids of the `.config` groups of a projection, in order. -/
def gidsOf : List ProjStep → List Nat
  | [] => []
  | .fixed _ _ _ :: rest => gidsOf rest
  | .configGroup gid _ _ :: rest => gid :: gidsOf rest

theorem mem_gidsOf (steps : List ProjStep) (gid : Nat) (excl : List String) (tf : Bool)
    (h : ProjStep.configGroup gid excl tf ∈ steps) : gid ∈ gidsOf steps := by
  induction steps with
  | nil => cases h
  | cons step rest ih =>
    rcases List.mem_cons.mp h with heq | hmem
    · rw [← heq]
      exact List.mem_cons_self _ _
    · cases step with
      | fixed _ _ _ => exact ih hmem
      | configGroup g e t => exact List.mem_cons_of_mem _ (ih hmem)

/-- Replace a state's row buffer. -/
def withRow (u : SchemaState) (x : List String) : SchemaState := { u with row := x }

theorem withRow_seens (u : SchemaState) (x : List String) : (withRow u x).seens = u.seens := rfl

theorem withRow_nFields (u : SchemaState) (x : List String) :
    (withRow u x).nFields = u.nFields := rfl

/-- Replaying a completed `configFold` against a later (grown) state `u`
whose `seen` map agrees on every key the fold ended up binding finds
every field instead of growing, and produces the padded original row. -/
theorem configFold_replay (gid : Nat) (excl : List String) (tf : Bool) (u : SchemaState)
    (cfgs : List (String × String)) :
    ∀ a : SchemaState, stInv a →
    (configFold gid excl tf a cfgs).nFields ≤ u.nFields →
    (∀ key, (alookup (configFold gid excl tf a cfgs).seens key).isSome →
       alookup u.seens key = alookup (configFold gid excl tf a cfgs).seens key) →
    (∀ k1 v1, (k1, v1) ∈ cfgs →
       alookup (configFold gid excl tf a cfgs).seens (gid, k1) = none →
       alookup u.seens (gid, k1) = none) →
    configFold gid excl tf (withRow u (pad a.row u.nFields)) cfgs
      = withRow u (pad (configFold gid excl tf a cfgs).row u.nFields) := by
  induction cfgs with
  | nil =>
    intro a _ _ _ _
    rfl
  | cons kv0 rest ih =>
    obtain ⟨k, v⟩ := kv0
    intro a hIa hN hsome hnone
    cases hl : alookup a.seens (gid, k) with
    | some idx =>
      -- The key was already a field: both runs write at the same index.
      set a1 : SchemaState := { a with row := a.row.set idx v } with ha1
      have hb : configFold gid excl tf a ((k, v) :: rest) = configFold gid excl tf a1 rest := by
        simp only [configFold, hl]
      have hIa1 : stInv a1 := ⟨by simpa [ha1] using hIa.1, hIa.2⟩
      have ha1seens : a1.seens = a.seens := rfl
      have hbk : alookup (configFold gid excl tf a1 rest).seens (gid, k) = some idx := by
        rw [configFold_seens_stable gid excl tf rest a1 (gid, k)
          (by rw [ha1seens, hl]; rfl), ha1seens]
        exact hl
      have hu : alookup u.seens (gid, k) = some idx := by
        have := hsome (gid, k) (by rw [hb, hbk]; rfl)
        rw [hb] at this
        rw [this, hbk]
      have hidx : idx < a.row.length := by
        rw [hIa.1]
        exact hIa.2 _ idx (alookup_mem _ _ _ hl)
      have hstep : configFold gid excl tf (withRow u (pad a.row u.nFields)) ((k, v) :: rest)
          = configFold gid excl tf (withRow u (pad a1.row u.nFields)) rest := by
        simp only [configFold, withRow_seens, hu]
        congr 1
        show withRow u ((pad a.row u.nFields).set idx v) = withRow u (pad a1.row u.nFields)
        rw [pad_set a.row u.nFields idx v hidx]
      rw [hstep, hb]
      exact ih a1 hIa1 (by rw [hb] at hN; exact hN)
        (by rw [hb] at hsome; exact hsome)
        (fun k1 v1 hm => by
          rw [hb] at hnone
          exact hnone k1 v1 (List.mem_cons_of_mem _ hm))
    | none =>
      by_cases he : k ∈ excl
      · -- Excluded key: both runs skip it.
        have hb : configFold gid excl tf a ((k, v) :: rest) = configFold gid excl tf a rest := by
          simp only [configFold, hl, if_pos he]
        have hbnone : alookup (configFold gid excl tf a rest).seens (gid, k) = none :=
          configFold_none_stable gid excl tf rest a gid k (Or.inr he) hl
        have hu : alookup u.seens (gid, k) = none := by
          have := hnone k v (List.mem_cons_self _ _)
          rw [hb] at this
          exact this hbnone
        have hstep : configFold gid excl tf (withRow u (pad a.row u.nFields)) ((k, v) :: rest)
            = configFold gid excl tf (withRow u (pad a.row u.nFields)) rest := by
          simp only [configFold, withRow_seens, hu, if_pos he]
        rw [hstep, hb]
        exact ih a hIa (by rw [hb] at hN; exact hN)
          (by rw [hb] at hsome; exact hsome)
          (fun k1 v1 hm => by
            rw [hb] at hnone
            exact hnone k1 v1 (List.mem_cons_of_mem _ hm))
      · -- New key: the original run grew the schema; the replay finds
        -- the field the original run created, at the same index.
        set a1 : SchemaState :=
          { a with nFields := a.nFields + 1,
                   seens := ((gid, k), a.nFields) :: a.seens,
                   row := (a.row ++ [""]).set a.nFields v,
                   orderedFields :=
                     if tf then a.orderedFields ++ [a.nFields] else a.orderedFields,
                   orders := if tf then a.orders ++ [(a.nFields, [])] else a.orders }
          with ha1
        have hb : configFold gid excl tf a ((k, v) :: rest) = configFold gid excl tf a1 rest := by
          simp only [configFold, hl, if_neg he]
        have hIa1 : stInv a1 := by
          constructor
          · show ((a.row ++ [""]).set a.nFields v).length = a.nFields + 1
            simp [hIa.1]
          · intro k' idx' hk'
            have hk2 : (k', idx') ∈ ((gid, k), a.nFields) :: a.seens := hk'
            show idx' < a.nFields + 1
            rcases List.mem_cons.mp hk2 with heq | hmem
            · cases heq; omega
            · exact Nat.lt_succ_of_lt (hIa.2 k' idx' hmem)
        have ha1seens : a1.seens = ((gid, k), a.nFields) :: a.seens := rfl
        have hbk : alookup (configFold gid excl tf a1 rest).seens (gid, k) = some a.nFields := by
          have hsome1 : alookup a1.seens (gid, k) = some a.nFields := by
            rw [ha1seens, alookup_cons, if_pos rfl]
          rw [configFold_seens_stable gid excl tf rest a1 (gid, k) (by rw [hsome1]; rfl), hsome1]
        have hu : alookup u.seens (gid, k) = some a.nFields := by
          have := hsome (gid, k) (by rw [hb, hbk]; rfl)
          rw [hb] at this
          rw [this, hbk]
        have hlen : a.row.length < u.nFields := by
          have hm1 := (configFold_inv gid excl tf rest a1 hIa1).2
          have hn1 : a1.nFields = a.nFields + 1 := rfl
          rw [hb] at hN
          rw [hIa.1]
          omega
        have hrow1 : a1.row = (a.row ++ [""]).set a.row.length v := by
          show (a.row ++ [""]).set a.nFields v = (a.row ++ [""]).set a.row.length v
          rw [hIa.1]
        have hstep : configFold gid excl tf (withRow u (pad a.row u.nFields)) ((k, v) :: rest)
            = configFold gid excl tf (withRow u (pad a1.row u.nFields)) rest := by
          simp only [configFold, withRow_seens, hu]
          congr 1
          show withRow u ((pad a.row u.nFields).set a.nFields v) = withRow u (pad a1.row u.nFields)
          rw [hIa.1.symm, pad_snoc a.row u.nFields v hlen, hrow1]
        rw [hstep, hb]
        exact ih a1 hIa1 (by rw [hb] at hN; exact hN)
          (by rw [hb] at hsome; exact hsome)
          (fun k1 v1 hm => by
            rw [hb] at hnone
            exact hnone k1 v1 (List.mem_cons_of_mem _ hm))

/-- Replaying a completed projection run against a later (grown) state
`u` whose `seen` maps agree with the final state of the original run
reproduces the original row, padded with trailing empties to the grown
width, and changes nothing but the row buffer. -/
theorem runSteps_replay (r : BResult) (u : SchemaState) (steps : List ProjStep) :
    ∀ (a t : SchemaState),
    runSteps steps a r = (t, true) →
    stInv a →
    (gidsOf steps).Nodup →
    (∀ idx ext exact, ProjStep.fixed idx ext exact ∈ steps → idx < a.nFields) →
    t.nFields ≤ u.nFields →
    (∀ key, (alookup t.seens key).isSome →
       alookup u.seens key = alookup t.seens key) →
    (∀ gid excl tf, ProjStep.configGroup gid excl tf ∈ steps →
       ∀ k1 v1, (k1, v1) ∈ r.fileConfig → alookup t.seens (gid, k1) = none →
         alookup u.seens (gid, k1) = none) →
    runSteps steps (withRow u (pad a.row u.nFields)) r
      = (withRow u (pad t.row u.nFields), true) := by
  induction steps with
  | nil =>
    intro a t hrun _ _ _ _ _ _
    simp only [runSteps] at hrun ⊢
    obtain ⟨h1, -⟩ := Prod.mk.injEq .. ▸ hrun
    have hta : t = a := by
      cases hrun
      rfl
    rw [hta]
  | cons step rest ih =>
    intro a t hrun hIa hnodup hfix hN hsome hnone
    have hp : (runStep a r step).2 = true := by
      by_contra hc
      simp only [runSteps, hc, Bool.false_eq_true, if_false] at hrun
      cases hrun
    have hrest : runSteps rest (runStep a r step).1 r = (t, true) := by
      simpa [runSteps, hp] using hrun
    cases step with
    | fixed idx ext exact =>
      have hidx : idx < a.row.length := by
        rw [hIa.1]
        exact hfix idx ext exact (List.mem_cons_self _ _)
      have ha1row : (runStep a r (ProjStep.fixed idx ext exact)).1.row = a.row.set idx (ext r)
          ∧ (runStep a r (ProjStep.fixed idx ext exact)).1.nFields = a.nFields
          ∧ (runStep a r (ProjStep.fixed idx ext exact)).1.seens = a.seens := by
        cases exact with
        | none => exact ⟨rfl, rfl, rfl⟩
        | some list =>
          by_cases hm : ext r ∈ list
          · simp [runStep, hm]
          · simp only [runStep, if_neg hm] at hp
            cases hp
      have hIa1 : stInv (runStep a r (ProjStep.fixed idx ext exact)).1 := by
        constructor
        · rw [ha1row.1, ha1row.2.1]
          simpa using hIa.1
        · rw [ha1row.2.2, ha1row.2.1]
          exact hIa.2
      have hreplay : runStep (withRow u (pad a.row u.nFields)) r (ProjStep.fixed idx ext exact)
          = (withRow u (pad (a.row.set idx (ext r)) u.nFields), true) := by
        cases exact with
        | none =>
          simp only [runStep]
          show (withRow u ((pad a.row u.nFields).set idx (ext r)), true)
            = (withRow u (pad (a.row.set idx (ext r)) u.nFields), true)
          rw [pad_set _ _ _ _ hidx]
        | some list =>
          by_cases hm : ext r ∈ list
          · simp only [runStep, if_pos hm]
            show (withRow u ((pad a.row u.nFields).set idx (ext r)), true)
              = (withRow u (pad (a.row.set idx (ext r)) u.nFields), true)
            rw [pad_set _ _ _ _ hidx]
          · simp only [runStep, if_neg hm] at hp
            cases hp
      have hgoal : runSteps (ProjStep.fixed idx ext exact :: rest)
          (withRow u (pad a.row u.nFields)) r
          = runSteps rest (withRow u (pad (a.row.set idx (ext r)) u.nFields)) r := by
        simp only [runSteps, hreplay, if_true]
      rw [hgoal]
      have hrow1 : pad (a.row.set idx (ext r)) u.nFields
          = pad (runStep a r (ProjStep.fixed idx ext exact)).1.row u.nFields := by
        rw [ha1row.1]
      rw [hrow1]
      exact ih (runStep a r (ProjStep.fixed idx ext exact)).1 t hrest hIa1
        (by simpa [gidsOf] using hnodup)
        (fun idx' ext' exact' hm => by
          rw [ha1row.2.1]
          exact hfix idx' ext' exact' (List.mem_cons_of_mem _ hm))
        hN hsome
        (fun gid excl tf hm => hnone gid excl tf (List.mem_cons_of_mem _ hm))
    | configGroup gid excl tf =>
      have ha1 : (runStep a r (ProjStep.configGroup gid excl tf)).1
          = configFold gid excl tf a r.fileConfig := rfl
      set a1 := configFold gid excl tf a r.fileConfig with ha1def
      have hrest1 : runSteps rest a1 r = (t, true) := by
        rw [← ha1]
        exact hrest
      have hIa1 : stInv a1 := (configFold_inv gid excl tf r.fileConfig a hIa).1
      have hgidfresh : gid ∉ gidsOf rest := by
        have : gidsOf (ProjStep.configGroup gid excl tf :: rest) = gid :: gidsOf rest := rfl
        rw [this] at hnodup
        exact (List.nodup_cons.mp hnodup).1
      -- Hypotheses of the configFold replay, derived from the final state t.
      have hsome1 : ∀ key, (alookup a1.seens key).isSome →
          alookup u.seens key = alookup a1.seens key := by
        intro key hk
        have hstab := runSteps_seens_stable rest a1 r key hk
        have hfst : (runSteps rest a1 r).1 = t := by rw [hrest1]
        rw [hfst] at hstab
        rw [hsome key (by rw [hstab]; exact hk), hstab]
      have hnone1 : ∀ k1 v1, (k1, v1) ∈ r.fileConfig →
          alookup a1.seens (gid, k1) = none → alookup u.seens (gid, k1) = none := by
        intro k1 v1 hkv hn
        have hexcl : k1 ∈ excl := by
          by_contra hc
          have := configFold_coverage gid excl tf r.fileConfig a k1 v1 hkv hc
          rw [← ha1def, hn] at this
          cases this
        have hgidexcl : gidExcl rest gid k1 := by
          intro excl' tf' hm
          exact absurd (mem_gidsOf rest gid excl' tf' hm) hgidfresh
        have htn : alookup t.seens (gid, k1) = none := by
          have := runSteps_none_stable rest a1 r gid k1 hgidexcl hn
          have hfst : (runSteps rest a1 r).1 = t := by rw [hrest1]
          rw [hfst] at this
          exact this
        exact hnone gid excl tf (List.mem_cons_self _ _) k1 v1 hkv htn
      have hN1 : a1.nFields ≤ u.nFields := by
        have := (runSteps_inv rest a1 r hIa1).2
        have hfst : (runSteps rest a1 r).1 = t := by rw [hrest1]
        rw [hfst] at this
        omega
      have hfold := configFold_replay gid excl tf u r.fileConfig a hIa
        (by rw [← ha1def]; exact hN1)
        (by rw [← ha1def]; exact hsome1)
        (by rw [← ha1def]; exact fun k1 v1 hm => hnone1 k1 v1 hm)
      have hgoal : runSteps (ProjStep.configGroup gid excl tf :: rest)
          (withRow u (pad a.row u.nFields)) r
          = runSteps rest (withRow u (pad a1.row u.nFields)) r := by
        simp only [runSteps, runStep]
        rw [hfold, ← ha1def]
        simp
      rw [hgoal]
      exact ih a1 t hrest1 hIa1
        (by
          have : gidsOf (ProjStep.configGroup gid excl tf :: rest) = gid :: gidsOf rest := rfl
          rw [this] at hnodup
          exact (List.nodup_cons.mp hnodup).2)
        (fun idx' ext' exact' hm => by
          have h1 := hfix idx' ext' exact' (List.mem_cons_of_mem _ hm)
          have h2 := (configFold_inv gid excl tf r.fileConfig a hIa).2
          rw [← ha1def] at h2
          omega)
        hN hsome
        (fun gid' excl' tf' hm => hnone gid' excl' tf' (List.mem_cons_of_mem _ hm))

/-- With distinct group ids, a group id determines its exclusion list. -/
theorem gid_unique : ∀ (steps : List ProjStep), (gidsOf steps).Nodup →
    ∀ gid e1 t1 e2 t2, ProjStep.configGroup gid e1 t1 ∈ steps →
      ProjStep.configGroup gid e2 t2 ∈ steps → e1 = e2 ∧ t1 = t2 := by
  intro steps
  induction steps with
  | nil =>
    intro _ gid e1 t1 e2 t2 h1
    cases h1
  | cons step rest ih =>
    intro hnodup gid e1 t1 e2 t2 h1 h2
    cases step with
    | fixed i e x =>
      have hn : (gidsOf rest).Nodup := by simpa [gidsOf] using hnodup
      rcases List.mem_cons.mp h1 with heq | hm1
      · cases heq
      · rcases List.mem_cons.mp h2 with heq | hm2
        · cases heq
        · exact ih hn gid e1 t1 e2 t2 hm1 hm2
    | configGroup g e t =>
      have hcons : gidsOf (ProjStep.configGroup g e t :: rest) = g :: gidsOf rest := rfl
      rw [hcons] at hnodup
      have hfresh := (List.nodup_cons.mp hnodup).1
      have hn := (List.nodup_cons.mp hnodup).2
      rcases List.mem_cons.mp h1 with heq1 | hm1
      · injection heq1 with hg1 he1 ht1
        rcases List.mem_cons.mp h2 with heq2 | hm2
        · injection heq2 with hg2 he2 ht2
          exact ⟨he1.trans he2.symm, ht1.trans ht2.symm⟩
        · exact absurd (hg1 ▸ mem_gidsOf rest gid e2 t2 hm2) hfresh
      · rcases List.mem_cons.mp h2 with heq2 | hm2
        · injection heq2 with hg2 he2 ht2
          exact absurd (hg2 ▸ mem_gidsOf rest gid e1 t1 hm1) hfresh
        · exact ih hn gid e1 t1 e2 t2 hm1 hm2

/-- `Project` preserves the state invariant and only grows the schema. -/
theorem project_inv (steps : List ProjStep) (st : SchemaState) (r : BResult) (h : stInv st) :
    stInv (project steps st r).2.1 ∧ st.nFields ≤ (project steps st r).2.1.nFields := by
  have h0 : stInv ({ st with row := List.replicate st.nFields "" } : SchemaState) :=
    ⟨by simp, h.2⟩
  have hs := runSteps_inv steps { st with row := List.replicate st.nFields "" } r h0
  by_cases hb : (populateRow steps st r).2
  · simp only [project, hb, if_true]
    have hf := internRow_frame (populateRow steps st r).1
    constructor
    · constructor
      · rw [hf.1, hf.2.1]
        exact (by simpa [populateRow] using hs.1 : stInv (populateRow steps st r).1).1
      · rw [hf.2.2, hf.2.1]
        exact (by simpa [populateRow] using hs.1 : stInv (populateRow steps st r).1).2
    · rw [hf.2.1]
      simpa [populateRow] using hs.2
  · simp only [project, hb, Bool.false_eq_true, if_false]
    exact ⟨by simpa [populateRow] using hs.1, by simpa [populateRow] using hs.2⟩

/-- The `seen` maps after a whole `Project` call are those after its
projection loop (the intern step does not change them). -/
theorem project_none_stable (steps : List ProjStep) (st : SchemaState) (r : BResult)
    (gid : Nat) (k : String) (hx : gidExcl steps gid k)
    (h : alookup st.seens (gid, k) = none) :
    alookup (project steps st r).2.1.seens (gid, k) = none := by
  have hs := runSteps_none_stable steps { st with row := List.replicate st.nFields "" } r
    gid k hx h
  by_cases hb : (populateRow steps st r).2
  · simp only [project, hb, if_true]
    have hf := internRow_frame (populateRow steps st r).1
    rw [hf.2.2]
    simpa [populateRow] using hs
  · simp only [project, hb, Bool.false_eq_true, if_false]
    simpa [populateRow] using hs

/-- C2. Schema growth invariance: if projecting `r1` produced Config
`c1`, then projecting any other record `r2` (which may grow the schema
by previously-unseen fields) and re-projecting `r1` produces a Config
identical to `c1`: trailing absent fields are trimmed before hashing and
interning, so the old and the grown row intern to the same Config. -/
theorem c2_schema_growth_invariance
    (steps : List ProjStep) (st0 : SchemaState) (r1 r2 : BResult)
    (hInv : stInv st0)
    (hfix : ∀ idx ext exact, ProjStep.fixed idx ext exact ∈ steps → idx < st0.nFields)
    (hnodup : (gidsOf steps).Nodup)
    (c1 : Nat) (st1 : SchemaState)
    (h1 : project steps st0 r1 = (some c1, st1, true)) :
    (project steps (project steps st1 r2).2.1 r1).1 = some c1 ∧
      (project steps (project steps st1 r2).2.1 r1).2.2 = true := by
  -- Decompose the first projection.
  by_cases hb : (populateRow steps st0 r1).2
  case neg =>
    simp only [project, hb, Bool.false_eq_true, if_false] at h1
    cases h1
  case pos =>
  simp only [project, hb, if_true] at h1
  have hc1 : (internRow (populateRow steps st0 r1).1).1 = c1 := by
    have := congrArg (fun p => p.1) h1
    simpa using this
  have hst1 : (internRow (populateRow steps st0 r1).1).2 = st1 := by
    have := congrArg (fun p => p.2.1) h1
    simpa using this
  set a0 : SchemaState := { st0 with row := List.replicate st0.nFields "" } with ha0
  set tA : SchemaState := (runSteps steps a0 r1).1 with htA
  have hrunA : runSteps steps a0 r1 = (tA, true) := by
    have : (runSteps steps a0 r1).2 = true := by simpa [populateRow, ha0] using hb
    rw [htA]
    exact Prod.ext rfl this
  have hpop : (populateRow steps st0 r1).1 = tA := by
    simp [populateRow, ha0, htA]
  have hIa0 : stInv a0 := ⟨by simp [ha0], hInv.2⟩
  have hItA : stInv tA := by
    have := (runSteps_inv steps a0 r1 hIa0).1
    rwa [← htA] at this
  -- Facts about st1 (the state after interning r1's row).
  have hframe := internRow_frame tA
  have hst1seens : st1.seens = tA.seens := by
    rw [← hst1, hpop]
    exact hframe.2.2
  have hst1n : st1.nFields = tA.nFields := by
    rw [← hst1, hpop]
    exact hframe.2.1
  have hIst1 : stInv st1 := by
    constructor
    · rw [← hst1, hpop]
      rw [hframe.1, hframe.2.1]
      exact hItA.1
    · rw [hst1seens, hst1n]
      exact hItA.2
  have hc1lookup : alookup st1.configs (trimRow tA.row) = some c1 := by
    rw [← hst1, hpop, ← hc1, hpop]
    cases hcc : alookup tA.configs (trimRow tA.row) with
    | some c =>
      simp [internRow, hcc]
    | none =>
      simp [internRow, hcc, alookup_cons]
  -- Facts about st2 (the state after projecting r2).
  set st2 : SchemaState := (project steps st1 r2).2.1 with hst2
  have hIst2 : stInv st2 := (project_inv steps st1 r2 hIst1).1
  have hn12 : st1.nFields ≤ st2.nFields := (project_inv steps st1 r2 hIst1).2
  -- Replay r1's projection from st2.
  have hsome2 : ∀ key, (alookup tA.seens key).isSome →
      alookup st2.seens key = alookup tA.seens key := by
    intro key hk
    rw [← hst1seens] at hk ⊢
    exact project_seens_stable steps st1 r2 key hk
  have hnone2 : ∀ gid excl tf, ProjStep.configGroup gid excl tf ∈ steps →
      ∀ k1 v1, (k1, v1) ∈ r1.fileConfig → alookup tA.seens (gid, k1) = none →
        alookup st2.seens (gid, k1) = none := by
    intro gid excl tf hm k1 v1 hkv hn
    have hexcl : k1 ∈ excl := by
      by_contra hc
      have := runSteps_coverage steps a0 r1 tA hrunA gid excl tf hm k1 v1 hkv hc
      rw [hn] at this
      cases this
    have hx : gidExcl steps gid k1 := by
      intro excl' tf' hm'
      have := gid_unique steps hnodup gid excl tf excl' tf' hm hm'
      rw [← this.1]
      exact hexcl
    have hn1 : alookup st1.seens (gid, k1) = none := by
      rw [hst1seens]
      exact hn
    exact project_none_stable steps st1 r2 gid k1 hx hn1
  have hreplay := runSteps_replay r1 st2 steps a0 tA hrunA hIa0 hnodup
    (fun idx ext exact hm => hfix idx ext exact hm)
    (by rw [← hst1n]; exact hn12)
    hsome2 hnone2
  -- The replayed populate yields the padded original row.
  have hpad0 : pad a0.row st2.nFields = List.replicate st2.nFields "" := by
    have : a0.row = List.replicate st0.nFields "" := rfl
    rw [this]
    apply pad_replicate
    have h01 : st0.nFields ≤ tA.nFields := by
      have := (runSteps_inv steps a0 r1 hIa0).2
      rwa [← htA] at this
    omega
  have hclear : (withRow st2 (pad a0.row st2.nFields))
      = { st2 with row := List.replicate st2.nFields "" } := by
    rw [hpad0]
    rfl
  have hpop2 : populateRow steps st2 r1 = (withRow st2 (pad tA.row st2.nFields), true) := by
    rw [populateRow, ← hclear]
    exact hreplay
  -- Interning the padded row finds the original Config.
  have htrim : trimRow (withRow st2 (pad tA.row st2.nFields)).row = trimRow tA.row := by
    show trimRow (pad tA.row st2.nFields) = trimRow tA.row
    exact trim_pad tA.row st2.nFields
  have hcfg2 : alookup st2.configs (trimRow tA.row) = some c1 := by
    rw [hst2]
    rw [project_configs_stable steps st1 r2 (trimRow tA.row) (by rw [hc1lookup]; rfl)]
    exact hc1lookup
  have hintern : internRow (withRow st2 (pad tA.row st2.nFields))
      = (c1, withRow st2 (pad tA.row st2.nFields)) := by
    have hcfgs : (withRow st2 (pad tA.row st2.nFields)).configs = st2.configs := rfl
    rw [internRow]
    rw [htrim, hcfgs, hcfg2]
  simp only [project, hpop2, if_true, hintern]
  exact ⟨trivial, trivial⟩

/-- Witness for C2 at a concrete input: starting from a fresh `.config`
schema, project a record with no file keys, then a record with the new
key `a` (growing the schema), then the first record again: the same
Config (id 0) is returned. -/
theorem c2_schema_growth_invariance_witness :
    (project [ProjStep.configGroup 0 [] true]
      (project [ProjStep.configGroup 0 [] true]
        (project [ProjStep.configGroup 0 [] true]
          (SchemaState.mk 0 [] [] [] [] [] [])
          (BResult.mk [] "" [])).2.1
        (BResult.mk [("a", "x")] "" [])).2.1
      (BResult.mk [] "" [])).1 = some 0 := by
  have h := c2_schema_growth_invariance [ProjStep.configGroup 0 [] true]
    (SchemaState.mk 0 [] [] [] [] [] []) (BResult.mk [] "" []) (BResult.mk [("a", "x")] "" [])
    ⟨rfl, by intro k i hk; cases hk⟩
    (by
      intro idx ext exact hm
      rcases List.mem_cons.mp hm with heq | hmem
      · cases heq
      · cases hmem)
    (by simp [gidsOf])
    0
    (project [ProjStep.configGroup 0 [] true] (SchemaState.mk 0 [] [] [] [] [] [])
      (BResult.mk [] "" [])).2.1
    rfl
  exact h.1

/-! ## Config sorting (part_012 `less`/`SortConfigs`, schema.go `builtinOrders`)

`Config.Less` walks the flattened schema fields in schema order; at the
first field whose (padded) values differ it returns that field's
comparator; otherwise false. The built-in comparators are `alpha`
(Go string `<`, i.e. byte-lexicographic, modelled code-point-wise, which
agrees for valid UTF-8), `numeric` (`strconv.ParseFloat` both sides) and
the default first-observation order (`node.order` map, where a value
missing from the map reads as Go's zero value 0).

`parseFloat` models `strconv.ParseFloat` restricted to plain decimal
syntax (optional sign, digits, optional fraction, optional exponent),
evaluated exactly as a rational; float64 rounding, hex floats,
underscores and inf/nan forms are outside the model. -/

/-- Lexicographic comparison of code-point sequences (Go byte-wise
string `<` agrees with this on valid UTF-8). -/
def strLtL : List Char → List Char → Bool
  | [], [] => false
  | [], _ :: _ => true
  | _ :: _, [] => false
  | a :: as, b :: bs =>
    if a.toNat < b.toNat then true
    else if b.toNat < a.toNat then false
    else strLtL as bs

/-- Go string `<`. -/
def goStrLt (a b : String) : Bool := strLtL a.data b.data

def natOfDigits (ds : List Char) : Nat :=
  ds.foldl (fun n c => n * 10 + (c.toNat - 48)) 0

/-- An exactly-parsed decimal number: the value `mant * 10 ^ exp`. -/
structure DecVal where
  mant : Int
  exp : Int
deriving DecidableEq, Repr

/-- The rational value of a parsed decimal (proof-side view). -/
def DecVal.toRat (v : DecVal) : Rat := (v.mant : Rat) * (10 : Rat) ^ v.exp

/-- Numeric comparison of two parsed decimals, by scaling to the smaller
exponent (equals comparison of the exact rational values). -/
def decValLt (x y : DecVal) : Bool :=
  if y.exp ≤ x.exp then
    decide (x.mant * (10 : Int) ^ (x.exp - y.exp).toNat < y.mant)
  else
    decide (x.mant < y.mant * (10 : Int) ^ (y.exp - x.exp).toNat)

/-- `strconv.ParseFloat` restricted to plain decimal syntax (optional
sign, digits, optional fraction, optional exponent), evaluated exactly. -/
def parseFloat (s : String) : Option DecVal :=
  let p1 : Bool × List Char :=
    match s.data with
    | '-' :: rest => (true, rest)
    | '+' :: rest => (false, rest)
    | cs => (false, cs)
  let neg := p1.1
  let ip := p1.2.takeWhile Char.isDigit
  let cs2 := p1.2.dropWhile Char.isDigit
  let p2 : List Char × List Char :=
    match cs2 with
    | '.' :: rest => (rest.takeWhile Char.isDigit, rest.dropWhile Char.isDigit)
    | _ => ([], cs2)
  let fp := p2.1
  let cs3 := p2.2
  if ip.isEmpty ∧ fp.isEmpty then none
  else
    let m0 : Int := (natOfDigits (ip ++ fp) : Int)
    let m : Int := if neg then -m0 else m0
    let e0 : Int := -(fp.length : Int)
    match cs3 with
    | [] => some ⟨m, e0⟩
    | e :: rest =>
      if e = 'e' ∨ e = 'E' then
        let p3 : Bool × List Char :=
          match rest with
          | '-' :: r => (true, r)
          | '+' :: r => (false, r)
          | r => (false, r)
        let ed := p3.2.takeWhile Char.isDigit
        if ed.isEmpty ∨ ¬(p3.2.dropWhile Char.isDigit).isEmpty then none
        else
          let ex : Int := if p3.1 then -(natOfDigits ed : Int) else (natOfDigits ed : Int)
          some ⟨m, e0 + ex⟩
      else none

/-- `builtinOrders["numeric"]`: compare as numbers when both sides parse,
fall back to string order when neither does, and sort parsed numbers
before unparsable strings. -/
def numericLess (a b : String) : Bool :=
  match parseFloat a, parseFloat b with
  | some aa, some bb => decValLt aa bb
  | none, none => goStrLt a b
  | some _, none => true
  | none, some _ => false

/-- Position of a value in a first-observation order map; a value
missing from the map reads as Go's zero value 0. -/
def findPos : List String → String → Option Nat
  | [], _ => none
  | x :: rest, v => if x = v then some 0 else (findPos rest v).map (· + 1)

def orderIdx (order : List String) (v : String) : Nat :=
  match findPos order v with
  | some i => i
  | none => 0

/-- A field comparator: explicit observation order (`first`), `alpha`, or
`numeric`. -/
inductive FieldCmp where
  | first (order : List String)
  | alpha
  | numeric
deriving DecidableEq, Repr

def fieldLess : FieldCmp → String → String → Bool
  | .first order, a, b => decide (orderIdx order a < orderIdx order b)
  | .alpha, a, b => goStrLt a b
  | .numeric, a, b => numericLess a b

/-- One flattened schema field: its value index and its comparator. -/
structure FlatField where
  idx : Nat
  cmp : FieldCmp
deriving DecidableEq, Repr

/-- `less(flat, a, b)`: walk the fields in schema order, comparing the
(padded) values; the first differing field decides. -/
def rowLess (flat : List FlatField) (a b : List String) : Bool :=
  match flat with
  | [] => false
  | f :: rest =>
    let aa := a.getD f.idx ""
    let bb := b.getD f.idx ""
    if aa ≠ bb then fieldLess f.cmp aa bb else rowLess rest a b

/-- `decValLt` decides exactly the comparison of the rational values. -/
theorem decValLt_iff (x y : DecVal) : decValLt x y = true ↔ x.toRat < y.toRat := by
  have h10 : (10 : Rat) ≠ 0 := by norm_num
  have hcast : ∀ (a : Int) (n : Nat), ((a * (10 : Int) ^ n : Int) : Rat)
      = (a : Rat) * (10 : Rat) ^ (n : Int) := by
    intro a n
    push_cast
    rw [zpow_natCast]
  have hposx : (0 : Rat) < (10 : Rat) ^ x.exp := by positivity
  have hposy : (0 : Rat) < (10 : Rat) ^ y.exp := by positivity
  unfold decValLt DecVal.toRat
  by_cases hd : y.exp ≤ x.exp
  · simp only [if_pos hd, decide_eq_true_eq]
    have hswap : (x.mant : Rat) * (10 : Rat) ^ x.exp
        = (x.mant : Rat) * (10 : Rat) ^ (x.exp - y.exp) * (10 : Rat) ^ y.exp := by
      rw [mul_assoc, ← zpow_add₀ h10, sub_add_cancel]
    constructor
    · intro h
      have h2 : ((x.mant * (10 : Int) ^ (x.exp - y.exp).toNat : Int) : Rat) < (y.mant : Rat) := by
        exact_mod_cast h
      rw [hcast, Int.toNat_of_nonneg (by omega : (0 : Int) ≤ x.exp - y.exp)] at h2
      rw [hswap]
      exact (mul_lt_mul_right hposy).mpr h2
    · intro h
      rw [hswap] at h
      have h2 := (mul_lt_mul_right hposy).mp h
      rw [← Int.toNat_of_nonneg (by omega : (0 : Int) ≤ x.exp - y.exp), ← hcast] at h2
      exact_mod_cast h2
  · simp only [if_neg hd, decide_eq_true_eq]
    have hswap : (y.mant : Rat) * (10 : Rat) ^ y.exp
        = (y.mant : Rat) * (10 : Rat) ^ (y.exp - x.exp) * (10 : Rat) ^ x.exp := by
      rw [mul_assoc, ← zpow_add₀ h10, sub_add_cancel]
    constructor
    · intro h
      have h2 : (x.mant : Rat) < ((y.mant * (10 : Int) ^ (y.exp - x.exp).toNat : Int) : Rat) := by
        exact_mod_cast h
      rw [hcast, Int.toNat_of_nonneg (by omega : (0 : Int) ≤ y.exp - x.exp)] at h2
      rw [hswap]
      exact (mul_lt_mul_right hposx).mpr h2
    · intro h
      rw [hswap] at h
      have h2 := (mul_lt_mul_right hposx).mp h
      rw [← Int.toNat_of_nonneg (by omega : (0 : Int) ≤ y.exp - x.exp), ← hcast] at h2
      exact_mod_cast h2

theorem strLtL_irrefl : ∀ as, strLtL as as = false := by
  intro as
  induction as with
  | nil => rfl
  | cons a rest ih => simp [strLtL, ih]

theorem strLtL_asymm : ∀ as bs, strLtL as bs = true → strLtL bs as = true → False := by
  intro as
  induction as with
  | nil =>
    intro bs h1 h2
    cases bs with
    | nil => cases h1
    | cons b bs' => cases h2
  | cons a as' ih =>
    intro bs h1 h2
    cases bs with
    | nil => cases h1
    | cons b bs' =>
      by_cases hab : a.toNat < b.toNat
      · have : ¬ b.toNat < a.toNat := by omega
        simp [strLtL, this, hab] at h2
      · by_cases hba : b.toNat < a.toNat
        · simp [strLtL, hab, hba] at h1
        · simp only [strLtL, if_neg hab, if_neg hba] at h1 h2
          exact ih bs' h1 h2

theorem strLtL_trans : ∀ as bs cs, strLtL as bs = true → strLtL bs cs = true →
    strLtL as cs = true := by
  intro as
  induction as with
  | nil =>
    intro bs cs h1 h2
    cases bs with
    | nil => cases h1
    | cons b bs' =>
      cases cs with
      | nil => cases h2
      | cons c cs' => rfl
  | cons a as' ih =>
    intro bs cs h1 h2
    cases bs with
    | nil => cases h1
    | cons b bs' =>
      cases cs with
      | nil => cases h2
      | cons c cs' =>
        by_cases hab : a.toNat < b.toNat
        · by_cases hbc : b.toNat < c.toNat
          · have : a.toNat < c.toNat := by omega
            simp [strLtL, this]
          · by_cases hcb : c.toNat < b.toNat
            · simp [strLtL, hbc, hcb] at h2
            · have hbceq : b.toNat = c.toNat := by omega
              have : a.toNat < c.toNat := by omega
              simp [strLtL, this]
        · by_cases hba : b.toNat < a.toNat
          · simp [strLtL, hab, hba] at h1
          · have habq : a.toNat = b.toNat := by omega
            simp only [strLtL, if_neg hab, if_neg hba] at h1
            by_cases hbc : b.toNat < c.toNat
            · have : a.toNat < c.toNat := by omega
              simp [strLtL, this]
            · by_cases hcb : c.toNat < b.toNat
              · simp [strLtL, hbc, hcb] at h2
              · simp only [strLtL, if_neg hbc, if_neg hcb] at h2
                have hac : ¬ a.toNat < c.toNat := by omega
                have hca : ¬ c.toNat < a.toNat := by omega
                simp only [strLtL, if_neg hac, if_neg hca]
                exact ih bs' cs' h1 h2

theorem char_eq_of_toNat_eq {a b : Char} (h : a.toNat = b.toNat) : a = b := by
  have h1 : Char.ofNat a.toNat = Char.ofNat b.toNat := by rw [h]
  rwa [Char.ofNat_toNat, Char.ofNat_toNat] at h1

theorem strLtL_total : ∀ as bs, as ≠ bs → strLtL as bs = true ∨ strLtL bs as = true := by
  intro as
  induction as with
  | nil =>
    intro bs hne
    cases bs with
    | nil => exact absurd rfl hne
    | cons b bs' => exact Or.inl rfl
  | cons a as' ih =>
    intro bs hne
    cases bs with
    | nil => exact Or.inr rfl
    | cons b bs' =>
      by_cases hab : a.toNat < b.toNat
      · exact Or.inl (by simp [strLtL, hab])
      · by_cases hba : b.toNat < a.toNat
        · exact Or.inr (by simp [strLtL, hba, show ¬ a.toNat < b.toNat from hab])
        · have haeq : a = b := char_eq_of_toNat_eq (by omega)
          have htail : as' ≠ bs' := by
            intro he
            exact hne (by rw [haeq, he])
          rcases ih bs' htail with h | h
          · exact Or.inl (by simp only [strLtL, if_neg hab, if_neg hba]; exact h)
          · exact Or.inr (by
              have hab' : ¬ b.toNat < a.toNat := hba
              have hba' : ¬ a.toNat < b.toNat := hab
              simp only [strLtL, if_neg hab', if_neg hba']
              exact h)

theorem goStrLt_trans (a b c : String) (h1 : goStrLt a b = true) (h2 : goStrLt b c = true) :
    goStrLt a c = true :=
  strLtL_trans a.data b.data c.data h1 h2

theorem goStrLt_asymm (a b : String) (h1 : goStrLt a b = true) (h2 : goStrLt b a = true) :
    False :=
  strLtL_asymm a.data b.data h1 h2

theorem string_eq_of_data_eq {a b : String} (h : a.data = b.data) : a = b :=
  congrArg String.mk h

theorem goStrLt_total (a b : String) (hne : a ≠ b) :
    goStrLt a b = true ∨ goStrLt b a = true := by
  apply strLtL_total
  intro h
  exact hne (string_eq_of_data_eq h)

/-- Every built-in field comparator is asymmetric. -/
theorem fieldLess_asymm (c : FieldCmp) (x y : String)
    (h1 : fieldLess c x y = true) (h2 : fieldLess c y x = true) : False := by
  cases c with
  | first order =>
    simp only [fieldLess, decide_eq_true_eq] at h1 h2
    omega
  | alpha => exact goStrLt_asymm x y h1 h2
  | numeric =>
    simp only [fieldLess, numericLess] at h1 h2
    cases hx : parseFloat x with
    | none =>
      cases hy : parseFloat y with
      | none =>
        simp only [hx, hy] at h1
        exact goStrLt_asymm x y h1 (by simpa only [hx, hy] using h2)
      | some yv =>
        simp only [hx, hy] at h1
        cases h1
    | some xv =>
      cases hy : parseFloat y with
      | none =>
        simp only [hx, hy] at h2
        cases h2
      | some yv =>
        simp only [hx, hy] at h1 h2
        rw [decValLt_iff] at h1 h2
        exact absurd h2 (not_lt.mpr (le_of_lt h1))

/-- Every built-in field comparator is transitive. -/
theorem fieldLess_trans (c : FieldCmp) (x y z : String)
    (h1 : fieldLess c x y = true) (h2 : fieldLess c y z = true) :
    fieldLess c x z = true := by
  cases c with
  | first order =>
    simp only [fieldLess, decide_eq_true_eq] at h1 h2 ⊢
    omega
  | alpha => exact goStrLt_trans x y z h1 h2
  | numeric =>
    simp only [fieldLess, numericLess] at h1 h2 ⊢
    cases hx : parseFloat x with
    | none =>
      cases hy : parseFloat y with
      | none =>
        simp only [hx, hy] at h1
        cases hz : parseFloat z with
        | none =>
          simp only [hy, hz] at h2
          simp only [hx, hz]
          exact goStrLt_trans x y z h1 h2
        | some zv =>
          simp only [hy, hz] at h2
          cases h2
      | some yv =>
        simp only [hx, hy] at h1
        cases h1
    | some xv =>
      cases hz : parseFloat z with
      | none => simp only [hx, hz]
      | some zv =>
        simp only [hx, hz]
        cases hy : parseFloat y with
        | none =>
          simp only [hy, hz] at h2
          cases h2
        | some yv =>
          simp only [hx, hy] at h1
          simp only [hy, hz] at h2
          rw [decValLt_iff] at h1 h2 ⊢
          exact lt_trans h1 h2

/-- `less` is irreflexive: equal rows never compare less. -/
theorem rowLess_irrefl (flat : List FlatField) (a : List String) :
    rowLess flat a a = false := by
  induction flat with
  | nil => rfl
  | cons f rest ih => simp [rowLess, ih]

/-- `less` is transitive. -/
theorem rowLess_trans (flat : List FlatField) (a b c : List String)
    (h1 : rowLess flat a b = true) (h2 : rowLess flat b c = true) :
    rowLess flat a c = true := by
  induction flat with
  | nil => cases h1
  | cons f rest ih =>
    by_cases hab : a.getD f.idx "" = b.getD f.idx ""
    · by_cases hbc : b.getD f.idx "" = c.getD f.idx ""
      · have hac : a.getD f.idx "" = c.getD f.idx "" := hab.trans hbc
        simp only [rowLess, hab, hbc, hac, ne_eq, not_true_eq_false, if_false] at h1 h2 ⊢
        exact ih h1 h2
      · have hac : a.getD f.idx "" ≠ c.getD f.idx "" := by rw [hab]; exact hbc
        simp only [rowLess, ne_eq, hbc, not_false_eq_true, if_true, hac] at h2 ⊢
        rw [hab]
        exact h2
    · by_cases hbc : b.getD f.idx "" = c.getD f.idx ""
      · have hac : a.getD f.idx "" ≠ c.getD f.idx "" := by rw [← hbc]; exact hab
        simp only [rowLess, ne_eq, hab, not_false_eq_true, if_true, hac] at h1 ⊢
        rw [← hbc]
        exact h1
      · simp only [rowLess, ne_eq, hab, hbc, not_false_eq_true, if_true] at h1 h2
        by_cases hac : a.getD f.idx "" = c.getD f.idx ""
        · exfalso
          rw [hac] at h1
          exact fieldLess_asymm f.cmp _ _ h2 h1
        · simp only [rowLess, ne_eq, hac, not_false_eq_true, if_true]
          exact fieldLess_trans f.cmp _ _ _ h1 h2

/-- `less` over all-alpha fields decides between rows differing at a
field. -/
theorem rowLess_total_alpha (flat : List FlatField) (a b : List String)
    (hall : ∀ f ∈ flat, f.cmp = FieldCmp.alpha)
    (hdiff : ∃ f ∈ flat, a.getD f.idx "" ≠ b.getD f.idx "") :
    rowLess flat a b = true ∨ rowLess flat b a = true := by
  induction flat with
  | nil =>
    obtain ⟨f, hf, -⟩ := hdiff
    cases hf
  | cons g rest ih =>
    by_cases hg : a.getD g.idx "" = b.getD g.idx ""
    · have hdiff' : ∃ f ∈ rest, a.getD f.idx "" ≠ b.getD f.idx "" := by
        obtain ⟨f, hf, hne⟩ := hdiff
        rcases List.mem_cons.mp hf with heq | hm
        · subst heq
          exact absurd hg hne
        · exact ⟨f, hm, hne⟩
      have hall' : ∀ f ∈ rest, f.cmp = FieldCmp.alpha :=
        fun f hf => hall f (List.mem_cons_of_mem _ hf)
      have hg' : b.getD g.idx "" = a.getD g.idx "" := hg.symm
      rcases ih hall' hdiff' with h | h
      · exact Or.inl (by simp only [rowLess, ne_eq, hg, not_true_eq_false, if_false]; exact h)
      · exact Or.inr (by simp only [rowLess, ne_eq, hg', not_true_eq_false, if_false]; exact h)
    · have hcmp : g.cmp = FieldCmp.alpha := hall g (List.mem_cons_self _ _)
      have hg' : b.getD g.idx "" ≠ a.getD g.idx "" := fun h => hg h.symm
      rcases goStrLt_total (a.getD g.idx "") (b.getD g.idx "") hg with h | h
      · refine Or.inl ?_
        simp only [rowLess, ne_eq, hg, not_false_eq_true, if_true, hcmp, fieldLess]
        exact h
      · refine Or.inr ?_
        simp only [rowLess, ne_eq, hg', not_false_eq_true, if_true, hcmp, fieldLess]
        exact h

theorem trimRow_eq_rdrop (l : List String) :
    trimRow l = l.rdropWhile (fun v => v = "") := rfl

/-- A trimmed nonempty row's last element is not empty. -/
theorem trimmed_last (l : List String) (htrim : trimRow l = l) (hl : l ≠ []) :
    ¬ (l.getLast hl = "") := by
  rw [trimRow_eq_rdrop] at htrim
  have := List.rdropWhile_eq_self_iff.mp htrim
  simpa using this hl

/-- The tail of a trimmed cons is trimmed. -/
theorem trimmed_tail (x : String) (as : List String) (h : trimRow (x :: as) = x :: as) :
    trimRow as = as := by
  cases as with
  | nil => rfl
  | cons a' as' =>
    rw [trimRow_eq_rdrop, List.rdropWhile_eq_self_iff]
    intro hl
    have hlx := trimmed_last (x :: a' :: as') h (by simp)
    rw [List.getLast_cons_cons] at hlx
    simpa using hlx

/-- Rows that are their own trim agree everywhere (with empty padding)
only if they are equal. -/
theorem trimmed_ext : ∀ (a b : List String), trimRow a = a → trimRow b = b →
    (∀ i, a.getD i "" = b.getD i "") → a = b := by
  have hallempty : ∀ (l : List String), (∀ i, l.getD i "" = "") → trimRow l = l → l = [] := by
    intro l hall htrim
    by_contra hne
    have hmem := List.getLast_mem hne
    obtain ⟨i, hi, hgl⟩ := List.mem_iff_getElem.mp hmem
    have := hall i
    rw [List.getD_eq_getElem?_getD, List.getElem?_eq_getElem hi] at this
    simp only [Option.getD_some] at this
    exact (trimmed_last l htrim hne) (by rw [hgl] at this; exact this)
  intro a
  induction a with
  | nil =>
    intro b _ hb h
    exact (hallempty b (fun i => ((h i).symm : b.getD i "" = "")) hb).symm
  | cons x as ih =>
    intro b ha hb h
    cases b with
    | nil =>
      exfalso
      have : (x :: as : List String) = [] :=
        hallempty (x :: as) (fun i => h i) ha
      cases this
    | cons y bs =>
      have hx : x = y := h 0
      have htails : ∀ i, as.getD i "" = bs.getD i "" := fun i => h (i + 1)
      rw [hx, ih bs (trimmed_tail x as ha) (trimmed_tail y bs hb) htails]

/-- Distinct trimmed rows differ at some (padded) index. -/
theorem trimmed_ne_getD (a b : List String) (ha : trimRow a = a) (hb : trimRow b = b)
    (hne : a ≠ b) : ∃ i, a.getD i "" ≠ b.getD i "" := by
  by_contra hc
  push_neg at hc
  exact hne (trimmed_ext a b ha hb hc)

/-- C7 counterexample: the claim fails as stated. Two records whose
projected field values are `"1"` and `"01"` produce two distinct Configs
of the same schema; under the `numeric` field comparator both parse to
the same number, so neither compares less than the other — "for any two
distinct Configs exactly one compares less" is false. -/
theorem c7_sort_totality_counterexample :
    ((project [ProjStep.fixed 0 (fun r => r.fullName) none]
        (SchemaState.mk 1 [""] [] [] [] [] []) (BResult.mk [] "1" [])).1 = some 0) ∧
    ((project [ProjStep.fixed 0 (fun r => r.fullName) none]
        (project [ProjStep.fixed 0 (fun r => r.fullName) none]
          (SchemaState.mk 1 [""] [] [] [] [] []) (BResult.mk [] "1" [])).2.1
        (BResult.mk [] "01" [])).1 = some 1) ∧
    rowLess [FlatField.mk 0 FieldCmp.numeric] ["1"] ["01"] = false ∧
    rowLess [FlatField.mk 0 FieldCmp.numeric] ["01"] ["1"] = false ∧
    (["1"] : List String) ≠ ["01"] := by
  refine ⟨rfl, rfl, by decide, by decide, by decide⟩

/-- C7 as amended: the comparison used by `SortConfigs` is a strict
partial order — irreflexive, transitive, asymmetric — for the `first`,
`alpha` and `numeric` field comparators; for `alpha` it moreover decides
between any two distinct trimmed same-schema rows whose differing
indices are covered by the schema's fields. (Full trichotomy fails for
`numeric` — distinct strings parsing to the same number, see the
counterexample — and for `first` on values missing from the observation
map.) -/
theorem c7_sort_strict_order :
    (∀ (flat : List FlatField) (a : List String), rowLess flat a a = false) ∧
    (∀ (flat : List FlatField) (a b c : List String),
       rowLess flat a b = true → rowLess flat b c = true → rowLess flat a c = true) ∧
    (∀ (flat : List FlatField) (a b : List String),
       rowLess flat a b = true → rowLess flat b a = false) ∧
    (∀ (flat : List FlatField) (a b : List String),
       (∀ f ∈ flat, f.cmp = FieldCmp.alpha) →
       trimRow a = a → trimRow b = b → a ≠ b →
       (∀ i, a.getD i "" ≠ b.getD i "" → ∃ f ∈ flat, f.idx = i) →
       (rowLess flat a b = true ∨ rowLess flat b a = true)) := by
  refine ⟨rowLess_irrefl, rowLess_trans, ?_, ?_⟩
  · intro flat a b h1
    by_contra hc
    have h2 : rowLess flat b a = true := by
      cases h : rowLess flat b a
      · exact absurd h hc
      · rfl
    have := rowLess_trans flat a b a h1 h2
    rw [rowLess_irrefl] at this
    cases this
  · intro flat a b hall ha hb hne hcov
    obtain ⟨i, hi⟩ := trimmed_ne_getD a b ha hb hne
    obtain ⟨f, hf, hfi⟩ := hcov i hi
    exact rowLess_total_alpha flat a b hall ⟨f, hf, by rw [hfi]; exact hi⟩

/-- Witness for C7's amended theorem at concrete inputs: transitivity
applied to concrete alpha-ordered rows. -/
theorem c7_sort_strict_order_witness :
    rowLess [FlatField.mk 0 FieldCmp.alpha] ["a"] ["c"] = true :=
  c7_sort_strict_order.2.1 [FlatField.mk 0 FieldCmp.alpha] ["a"] ["b"] ["c"]
    (by decide) (by decide)

/-! ## Query AST and Filter / Match (kvql query.go, benchproc filter.go)

The AST is `QueryMatch{Off, Key, regexp, raw}` leaves and
`QueryOp{Op, Exprs}` nodes. A compiled regexp is abstracted as an
environment `mp : String → String → Bool` mapping the raw pattern and a
candidate value to the match result (`QueryMatch.Match`); the per-key
extractors collected by `NewFilter` (via `benchfmt.NewExtractor`, out of
scope per the spec) are an environment `ext : String → BResult → String`.

`matchBuilder` words are uint64s, modelled as `Nat` kept below `2^64`;
Go's in-place loops over `m.rest` (whose length always equals the
companion builder's) are modelled with `zipWith`/`map`. -/

inductive QOp where
  | and
  | or
  | not
deriving DecidableEq, Repr

/-- A query tree node: a `QueryMatch` leaf (byte offset of the key, the
key, and the raw pattern whose compiled form is looked up in the `mp`
environment), or a `QueryOp`. -/
inductive Query where
  | qmatch (off : Nat) (key : String) (raw : String)
  | qop (op : QOp) (exprs : List Query)
deriving BEq, Repr

/-- `NewFilter`'s walk: does any leaf reference `.unit`? -/
def usesUnits : Query → Bool
  | .qmatch _ key _ => key == ".unit"
  | .qop _ [] => false
  | .qop op (q :: rest) => usesUnits q || usesUnits (.qop op rest)

/-- Well-formedness produced by the parser: every `OpNot` node has a
child (Go indexes `Exprs[0]`). -/
def notOk : Query → Bool
  | .qmatch _ _ _ => true
  | .qop .not [] => false
  | .qop .not (q :: rest) => notOk q && notOk (.qop .and rest)
  | .qop _ [] => true
  | .qop op (q :: rest) => notOk q && notOk (.qop op rest)

/-- Reference per-measurement semantics of a query, as the spec states
it: a `.unit` leaf tests measurement `i`'s unit, any other leaf tests
the record-level extraction; AND/OR/NOT combine per index, with
`AND() = true` and `OR() = false`. -/
def denote (mp : String → String → Bool) (ext : String → BResult → String)
    (res : BResult) : Query → Nat → Bool
  | .qmatch _ key raw, i =>
    if key == ".unit" then mp raw ((res.values.getD i (BValue.mk 0 "")).unit)
    else mp raw (ext key res)
  | .qop .not [], _ => false
  | .qop .not (q :: _), i => !(denote mp ext res q i)
  | .qop .and [], _ => true
  | .qop .and (q :: qs), i => denote mp ext res q i && denote mp ext res (.qop .and qs) i
  | .qop .or [], _ => false
  | .qop .or (q :: qs), i => denote mp ext res q i || denote mp ext res (.qop .or qs) i

/-- The intermediate bit accumulator of `Filter.match`: a head uint64
word and overflow words. -/
structure MatchBuilder where
  head : Nat
  rest : List Nat
deriving DecidableEq, Repr

/-- Number of overflow words for an `n`-value record. -/
def restLen (n : Nat) : Nat := if n ≤ 64 then 0 else (n + 63) / 64 - 1

def newMatchBuilder (n : Nat) : MatchBuilder :=
  if n ≤ 64 then MatchBuilder.mk 0 [] else MatchBuilder.mk 0 (List.replicate ((n + 63) / 64 - 1) 0)

/-- uint64 bitwise complement. -/
def compl64 (x : Nat) : Nat := x ^^^ (2 ^ 64 - 1)

def MatchBuilder.set (m : MatchBuilder) (i : Nat) : MatchBuilder :=
  if i < 64 then { m with head := m.head ||| (1 <<< i) }
  else { m with rest := m.rest.set (i / 64 - 1) (m.rest.getD (i / 64 - 1) 0 ||| (1 <<< (i % 64))) }

def MatchBuilder.setAll (m : MatchBuilder) : MatchBuilder :=
  MatchBuilder.mk (2 ^ 64 - 1) (m.rest.map (fun _ => 2 ^ 64 - 1))

/-- The `.unit` leaf loop: set each bit whose measurement unit matches. -/
def setUnits (p : String → Bool) : Nat → List BValue → MatchBuilder → MatchBuilder
  | _, [], m => m
  | i, v :: vs, m => setUnits p (i + 1) vs (if p v.unit then m.set i else m)

/-- `Filter.match`: evaluate the query to a bit builder. `uu` is the
filter's `usesUnits` flag (computed from the whole query). A `OpNot`
with no children is unreachable for parser-produced queries (Go would
panic on `Exprs[0]`); it returns the zero builder here. -/
def goMatch (mp : String → String → Bool) (ext : String → BResult → String)
    (uu : Bool) (res : BResult) : Query → MatchBuilder
  | .qmatch _ key raw =>
    let m := if uu then newMatchBuilder res.values.length else MatchBuilder.mk 0 []
    if uu && (key == ".unit") then
      setUnits (fun u => mp raw u) 0 res.values m
    else
      if mp raw (ext key res) then m.setAll else m
  | .qop .not [] => if uu then newMatchBuilder res.values.length else MatchBuilder.mk 0 []
  | .qop .not (q :: _) =>
    let m := goMatch mp ext uu res q
    MatchBuilder.mk (compl64 m.head) (m.rest.map compl64)
  | .qop .and [] =>
    (if uu then newMatchBuilder res.values.length else MatchBuilder.mk 0 []).setAll
  | .qop .and (q :: qs) =>
    let m := goMatch mp ext uu res q
    let m2 := goMatch mp ext uu res (.qop .and qs)
    MatchBuilder.mk (m.head &&& m2.head) (List.zipWith (· &&& ·) m.rest m2.rest)
  | .qop .or [] => if uu then newMatchBuilder res.values.length else MatchBuilder.mk 0 []
  | .qop .or (q :: qs) =>
    let m := goMatch mp ext uu res q
    let m2 := goMatch mp ext uu res (.qop .or qs)
    MatchBuilder.mk (m.head ||| m2.head) (List.zipWith (· ||| ·) m.rest m2.rest)

/-- The public `Match` value. -/
structure GoMatch where
  n : Nat
  allEqual : Bool
  head : Nat
  rest : List Nat
deriving DecidableEq, Repr

/-- `Match.Test`. -/
def GoMatch.test (m : GoMatch) (i : Nat) : Bool :=
  if m.n ≤ i then false
  else if m.allEqual then m.head &&& 1 != 0
  else if i < 64 then m.head &&& (1 <<< i) != 0
  else m.rest.getD (i / 64 - 1) 0 &&& (1 <<< (i % 64)) != 0

/-- `matchBuilder.finish`: wrap the builder; broadcast bit 0 when the
filter never referenced units, otherwise collapse to the compact
representation if all bits happen to be equal. -/
def MatchBuilder.finish (m : MatchBuilder) (broadcast : Bool) (n : Nat) : GoMatch :=
  let out := GoMatch.mk n false m.head m.rest
  if broadcast then { out with allEqual := true }
  else
    if (List.range' 1 (n - 1)).all (fun i => out.test i == (m.head &&& 1 != 0)) then
      GoMatch.mk n true (m.head &&& 1) []
    else out

/-- `Filter.Match`: build the bits for the query and finish. -/
def filterMatch (mp : String → String → Bool) (ext : String → BResult → String)
    (q : Query) (res : BResult) : GoMatch :=
  (goMatch mp ext (usesUnits q) res q).finish (!(usesUnits q)) res.values.length

/-- `Match.All`. -/
def GoMatch.all (m : GoMatch) : Bool := m.allEqual && (m.head &&& 1 != 0)

/-- `Match.Any`. -/
def GoMatch.anyv (m : GoMatch) : Bool := !m.allEqual || (m.head &&& 1 != 0)

/-- The compaction loop of `Match.Apply` (the `j`-indexed stable filter). -/
def filterIdx (m : GoMatch) : Nat → List BValue → List BValue
  | _, [] => []
  | i, v :: vs => if m.test i then v :: filterIdx m (i + 1) vs else filterIdx m (i + 1) vs

/-- `Match.Apply`: compact `res.Values` to the matching entries in place
and report whether any remained. -/
def GoMatch.apply (m : GoMatch) (res : BResult) : BResult × Bool :=
  if m.all then (res, true)
  else if !m.anyv then ({ res with values := [] }, false)
  else
    let newVals := filterIdx m 0 res.values
    ({ res with values := newVals }, decide (0 < newVals.length))

/-! ### Bit-level correctness of the builder operations -/

/-- Read bit `i` of a builder (the word layout of `Match.Test`). -/
def bTest (m : MatchBuilder) (i : Nat) : Bool :=
  if i < 64 then m.head &&& (1 <<< i) != 0
  else m.rest.getD (i / 64 - 1) 0 &&& (1 <<< (i % 64)) != 0

theorem and_shift_ne (x i : Nat) : (x &&& (1 <<< i) != 0) = x.testBit i := by
  rw [Nat.one_shiftLeft]
  cases h : x.testBit i
  · have h0 : x &&& 2 ^ i = 0 := by
      apply Nat.eq_of_testBit_eq
      intro j
      rw [Nat.testBit_and, Nat.testBit_two_pow, Nat.zero_testBit]
      by_cases hij : i = j
      · subst hij
        simp [h]
      · simp [hij]
    simp [h0]
  · have h0 : x &&& 2 ^ i ≠ 0 := by
      intro h0
      have := congrArg (fun y => y.testBit i) h0
      simp only [Nat.testBit_and, Nat.testBit_two_pow, Nat.zero_testBit, decide_True,
        Bool.and_true, h] at this
      cases this
    simp [h0]

theorem bTest_eq_testBit (m : MatchBuilder) (i : Nat) :
    bTest m i = (if i < 64 then m.head.testBit i
      else (m.rest.getD (i / 64 - 1) 0).testBit (i % 64)) := by
  unfold bTest
  by_cases hi : i < 64
  · simp [hi, and_shift_ne]
  · simp [hi, and_shift_ne]

theorem bTest_newMatchBuilder (n i : Nat) : bTest (newMatchBuilder n) i = false := by
  rw [bTest_eq_testBit]
  unfold newMatchBuilder
  by_cases hn : n ≤ 64
  · by_cases hi : i < 64
    · simp [hn, hi]
    · simp [hn, hi, List.getD]
  · by_cases hi : i < 64
    · simp [hn, hi]
    · simp only [hn, if_false, hi]
      rw [List.getD_eq_getElem?_getD, List.getElem?_replicate]
      by_cases hw : i / 64 - 1 < (n + 63) / 64 - 1 <;> simp [hw]

/-- Getting a word out of the overflow list, with i in range. -/
theorem getD_map_of_lt {f : Nat → Nat} {l : List Nat} {w : Nat} (h : w < l.length) :
    (l.map f).getD w 0 = f (l.getD w 0) := by
  rw [List.getD_eq_getElem?_getD, List.getD_eq_getElem?_getD, List.getElem?_map,
    List.getElem?_eq_getElem h]
  simp

theorem testBit_ones64 (i : Nat) (h : i < 64) : Nat.testBit (2 ^ 64 - 1) i = true := by
  rw [Nat.testBit_two_pow_sub_one]
  simpa using h

theorem bTest_setAll (m : MatchBuilder) (n i : Nat) (hlen : m.rest.length = restLen n)
    (hi : i < n) : bTest m.setAll i = true := by
  rw [bTest_eq_testBit]
  unfold MatchBuilder.setAll
  by_cases hi64 : i < 64
  · simp only [hi64, if_true]
    exact testBit_ones64 i hi64
  · simp only [hi64, if_false]
    have hn : ¬ n ≤ 64 := by omega
    have hw : i / 64 - 1 < m.rest.length := by
      rw [hlen]
      unfold restLen
      simp only [hn, if_false]
      omega
    rw [getD_map_of_lt hw]
    exact testBit_ones64 _ (Nat.mod_lt _ (by omega))

theorem bTest_not (m : MatchBuilder) (i : Nat)
    (h : i < 64 ∨ i / 64 - 1 < m.rest.length) :
    bTest (MatchBuilder.mk (compl64 m.head) (m.rest.map compl64)) i = !(bTest m i) := by
  rw [bTest_eq_testBit, bTest_eq_testBit]
  by_cases hi64 : i < 64
  · simp only [hi64, if_true]
    unfold compl64
    rw [Nat.testBit_xor, Nat.testBit_two_pow_sub_one]
    simp [hi64, Bool.xor_comm]
  · have hw : i / 64 - 1 < m.rest.length := h.resolve_left hi64
    simp only [hi64, if_false]
    rw [getD_map_of_lt hw]
    unfold compl64
    rw [Nat.testBit_xor, Nat.testBit_two_pow_sub_one]
    have hmod : i % 64 < 64 := Nat.mod_lt _ (by omega)
    simp [hmod, Bool.xor_comm]

theorem getD_zipWith_of_len {f : Nat → Nat → Nat} {l1 l2 : List Nat} (w : Nat)
    (hf : f 0 0 = 0) (hlen : l1.length = l2.length) :
    (List.zipWith f l1 l2).getD w 0 = f (l1.getD w 0) (l2.getD w 0) := by
  rw [List.getD_eq_getElem?_getD, List.getD_eq_getElem?_getD, List.getD_eq_getElem?_getD,
    List.getElem?_zipWith]
  by_cases hw : w < l1.length
  · rw [List.getElem?_eq_getElem hw, List.getElem?_eq_getElem (by omega : w < l2.length)]
    simp
  · rw [List.getElem?_eq_none (by omega : l1.length ≤ w),
      List.getElem?_eq_none (by omega : l2.length ≤ w)]
    simpa using hf.symm

theorem bTest_and (m1 m2 : MatchBuilder) (i : Nat) (hlen : m1.rest.length = m2.rest.length) :
    bTest (MatchBuilder.mk (m1.head &&& m2.head) (List.zipWith (· &&& ·) m1.rest m2.rest)) i
      = (bTest m1 i && bTest m2 i) := by
  rw [bTest_eq_testBit, bTest_eq_testBit, bTest_eq_testBit]
  by_cases hi64 : i < 64
  · simp [hi64, Nat.testBit_and]
  · simp only [hi64, if_false]
    rw [getD_zipWith_of_len _ rfl hlen, Nat.testBit_and]

theorem bTest_or (m1 m2 : MatchBuilder) (i : Nat) (hlen : m1.rest.length = m2.rest.length) :
    bTest (MatchBuilder.mk (m1.head ||| m2.head) (List.zipWith (· ||| ·) m1.rest m2.rest)) i
      = (bTest m1 i || bTest m2 i) := by
  rw [bTest_eq_testBit, bTest_eq_testBit, bTest_eq_testBit]
  by_cases hi64 : i < 64
  · simp [hi64, Nat.testBit_or]
  · simp only [hi64, if_false]
    rw [getD_zipWith_of_len _ rfl hlen, Nat.testBit_or]

theorem bTest_set (m : MatchBuilder) (k i : Nat)
    (hk : 64 ≤ k → k / 64 - 1 < m.rest.length) :
    bTest (m.set k) i = (bTest m i || decide (i = k)) := by
  rw [bTest_eq_testBit, bTest_eq_testBit]
  unfold MatchBuilder.set
  by_cases hk64 : k < 64
  · simp only [hk64, if_true]
    by_cases hi64 : i < 64
    · simp only [hi64, if_true]
      rw [Nat.testBit_or, Nat.one_shiftLeft, Nat.testBit_two_pow]
      by_cases hik : i = k
      · simp [hik]
      · have hki : ¬ (k = i) := fun h => hik h.symm
        simp [hik, hki]
    · have hik : ¬ (i = k) := by omega
      simp [hi64, hik]
  · have hw := hk (by omega)
    simp only [hk64, if_false]
    by_cases hi64 : i < 64
    · have hik : ¬ (i = k) := by omega
      simp [hi64, hik]
    · simp only [hi64, if_false]
      by_cases hww : i / 64 - 1 = k / 64 - 1
      · rw [List.getD_eq_getElem?_getD, hww, List.getElem?_set_self (by omega)]
        simp only [Option.getD_some]
        rw [Nat.testBit_or, List.getD_eq_getElem?_getD, Nat.one_shiftLeft,
          Nat.testBit_two_pow]
        by_cases hik : i = k
        · simp [hik]
        · have hmod : ¬ (k % 64 = i % 64) := by omega
          simp [hik, hmod]
      · have hik : ¬ (i = k) := by omega
        rw [List.getD_eq_getElem?_getD, List.getElem?_set_ne (fun h => hww h.symm),
          ← List.getD_eq_getElem?_getD]
        simp [hik]

theorem set_rest_length (m : MatchBuilder) (k : Nat) :
    (m.set k).rest.length = m.rest.length := by
  unfold MatchBuilder.set
  by_cases hk : k < 64 <;> simp [hk]

theorem setUnits_rest_length (p : String → Bool) :
    ∀ (vs : List BValue) (j : Nat) (m : MatchBuilder),
      (setUnits p j vs m).rest.length = m.rest.length := by
  intro vs
  induction vs with
  | nil => intro j m; rfl
  | cons v vs ih =>
    intro j m
    show (setUnits p (j + 1) vs (if p v.unit then m.set j else m)).rest.length = _
    rw [ih]
    by_cases hp : p v.unit <;> simp [hp, set_rest_length]

/-- The bit that the `.unit` loop starting at index `j` contributes at
index `i`. -/
def unitBit (p : String → Bool) (j : Nat) (vs : List BValue) (i : Nat) : Bool :=
  decide (j ≤ i) && decide (i - j < vs.length) && p ((vs.getD (i - j) (BValue.mk 0 "")).unit)

theorem unitBit_nil (p : String → Bool) (j i : Nat) : unitBit p j [] i = false := by
  simp [unitBit]

theorem unitBit_cons (p : String → Bool) (j i : Nat) (v : BValue) (vs : List BValue) :
    unitBit p j (v :: vs) i = ((decide (i = j) && p v.unit) || unitBit p (j + 1) vs i) := by
  unfold unitBit
  by_cases hij : i = j
  · subst hij
    have h1 : ¬ (i + 1 ≤ i) := by omega
    simp [Nat.sub_self, h1]
  · by_cases hji : j ≤ i
    · have h1 : j + 1 ≤ i := by omega
      have h2 : i - j = (i - (j + 1)) + 1 := by omega
      simp only [hij, decide_False, Bool.false_and, Bool.false_or, hji, decide_True,
        h1, Bool.true_and, h2, List.length_cons, List.getD_cons_succ]
      have h4 : decide (i - (j + 1) + 1 < vs.length + 1) = decide (i - (j + 1) < vs.length) := by
        apply decide_eq_decide.mpr
        omega
      rw [h4]
    · have h1 : ¬ (j + 1 ≤ i) := by omega
      simp [hji, h1, hij]

theorem setUnits_bTest (p : String → Bool) :
    ∀ (vs : List BValue) (j : Nat) (m : MatchBuilder) (i : Nat),
    (∀ k, 64 ≤ k → j ≤ k → k < j + vs.length → k / 64 - 1 < m.rest.length) →
    bTest (setUnits p j vs m) i = (bTest m i || unitBit p j vs i) := by
  intro vs
  induction vs with
  | nil =>
    intro j m i _
    simp [setUnits, unitBit_nil]
  | cons v vs ih =>
    intro j m i hk
    rw [unitBit_cons]
    show bTest (setUnits p (j + 1) vs (if p v.unit then m.set j else m)) i = _
    have hk' : ∀ k, 64 ≤ k → j + 1 ≤ k → k < (j + 1) + vs.length →
        k / 64 - 1 < (if p v.unit then m.set j else m).rest.length := by
      intro k h64 hjk hkv
      have : k / 64 - 1 < m.rest.length := hk k h64 (by omega) (by simp; omega)
      by_cases hp : p v.unit <;> simp [hp, set_rest_length, this]
    rw [ih (j + 1) _ i hk']
    by_cases hp : p v.unit
    · simp only [hp, if_true, Bool.and_true]
      by_cases hj64 : 64 ≤ j
      · rw [bTest_set m j i (fun _ => hk j hj64 (Nat.le_refl _) (by simp))]
        by_cases hij : i = j <;> simp [hij, Bool.or_assoc, Bool.or_comm, Bool.or_left_comm]
      · rw [bTest_set m j i (fun h => absurd h hj64)]
        by_cases hij : i = j <;> simp [hij, Bool.or_assoc, Bool.or_comm, Bool.or_left_comm]
    · simp only [hp, Bool.false_eq_true, if_false, Bool.and_false, Bool.false_or]

theorem newMatchBuilder_rest_length (n : Nat) :
    (newMatchBuilder n).rest.length = restLen n := by
  unfold newMatchBuilder restLen
  by_cases hn : n ≤ 64 <;> simp [hn]

theorem setAll_rest_length (m : MatchBuilder) :
    m.setAll.rest.length = m.rest.length := by
  simp [MatchBuilder.setAll]

/-- Every builder produced by `Filter.match` has the word count fixed by
the record's value count (zero words when units are not tracked). -/
theorem goMatch_rest_length (mp : String → String → Bool) (ext : String → BResult → String)
    (uu : Bool) (res : BResult) :
    ∀ q : Query, (goMatch mp ext uu res q).rest.length
      = (if uu then restLen res.values.length else 0)
  | .qmatch off key raw => by
    simp only [goMatch]
    by_cases hu : uu && (key == ".unit")
    · simp only [hu, if_true]
      rw [setUnits_rest_length]
      have : uu = true := by
        cases uu
        · cases hu
        · rfl
      simp [this, newMatchBuilder_rest_length]
    · simp only [hu, Bool.false_eq_true, if_false]
      by_cases hm : mp raw (ext key res)
      · cases uu <;> simp [hm, setAll_rest_length, newMatchBuilder_rest_length]
      · cases uu <;> simp [hm, newMatchBuilder_rest_length]
  | .qop .not [] => by
    cases uu <;> simp [goMatch, newMatchBuilder_rest_length]
  | .qop .not (q :: rest) => by
    have ih := goMatch_rest_length mp ext uu res q
    simp only [goMatch, List.length_map]
    exact ih
  | .qop .and [] => by
    cases uu <;> simp [goMatch, setAll_rest_length, newMatchBuilder_rest_length]
  | .qop .and (q :: qs) => by
    have ih1 := goMatch_rest_length mp ext uu res q
    have ih2 := goMatch_rest_length mp ext uu res (.qop .and qs)
    simp only [goMatch, List.length_zipWith, ih1, ih2, Nat.min_self]
  | .qop .or [] => by
    cases uu <;> simp [goMatch, newMatchBuilder_rest_length]
  | .qop .or (q :: qs) => by
    have ih1 := goMatch_rest_length mp ext uu res q
    have ih2 := goMatch_rest_length mp ext uu res (.qop .or qs)
    simp only [goMatch, List.length_zipWith, ih1, ih2, Nat.min_self]

/-- Without `.unit` leaves, the denotation is per-record, not
per-measurement. -/
theorem denote_const (mp : String → String → Bool) (ext : String → BResult → String)
    (res : BResult) :
    ∀ q : Query, usesUnits q = false → ∀ i j : Nat,
      denote mp ext res q i = denote mp ext res q j
  | .qmatch off key raw => by
    intro hu i j
    simp only [usesUnits] at hu
    simp [denote, hu]
  | .qop .not [] => by
    intro _ i j
    simp [denote]
  | .qop .not (q :: rest) => by
    intro hu i j
    simp only [usesUnits, Bool.or_eq_false_iff] at hu
    simp only [denote]
    rw [denote_const mp ext res q hu.1 i j]
  | .qop .and [] => by
    intro _ i j
    simp [denote]
  | .qop .and (q :: qs) => by
    intro hu i j
    simp only [usesUnits, Bool.or_eq_false_iff] at hu
    simp only [denote]
    rw [denote_const mp ext res q hu.1 i j, denote_const mp ext res (.qop .and qs) hu.2 i j]
  | .qop .or [] => by
    intro _ i j
    simp [denote]
  | .qop .or (q :: qs) => by
    intro hu i j
    simp only [usesUnits, Bool.or_eq_false_iff] at hu
    simp only [denote]
    rw [denote_const mp ext res q hu.1 i j, denote_const mp ext res (.qop .or qs) hu.2 i j]

/-- When the filter tracks units, bit `i` of the builder is the spec's
per-measurement denotation at index `i`. -/
theorem goMatch_bTest_units (mp : String → String → Bool) (ext : String → BResult → String)
    (res : BResult) :
    ∀ q : Query, ∀ i : Nat, i < res.values.length →
      bTest (goMatch mp ext true res q) i = denote mp ext res q i
  | .qmatch off key raw => by
    intro i hi
    simp only [goMatch, Bool.true_and]
    by_cases hu : key == ".unit"
    · simp only [hu, if_true]
      rw [setUnits_bTest _ _ _ _ _ (by
        intro k h64 _ hk
        rw [newMatchBuilder_rest_length]
        unfold restLen
        simp only [Nat.zero_add] at hk
        have : ¬ res.values.length ≤ 64 := by omega
        simp only [this, if_false]
        omega)]
      rw [bTest_newMatchBuilder]
      simp only [Bool.false_or, unitBit, Nat.zero_le, decide_True, Bool.true_and,
        Nat.sub_zero, hi, decide_True, Bool.true_and]
      simp only [denote, hu, if_true]
    · simp only [hu, Bool.false_eq_true, if_false]
      by_cases hm : mp raw (ext key res)
      · simp only [hm, if_true]
        rw [bTest_setAll _ res.values.length i (newMatchBuilder_rest_length _) hi]
        simp [denote, hu, hm]
      · simp only [hm, Bool.false_eq_true, if_false, if_true]
        rw [bTest_newMatchBuilder]
        simp [denote, hu, hm]
  | .qop .not [] => by
    intro i hi
    simp only [goMatch, if_true]
    rw [bTest_newMatchBuilder]
    simp [denote]
  | .qop .not (q :: rest) => by
    intro i hi
    have ih := goMatch_bTest_units mp ext res q i hi
    simp only [goMatch]
    rw [bTest_not _ i (by
      by_cases h64 : i < 64
      · exact Or.inl h64
      · refine Or.inr ?_
        rw [goMatch_rest_length]
        simp only [if_true]
        unfold restLen
        have : ¬ res.values.length ≤ 64 := by omega
        simp only [this, if_false]
        omega)]
    rw [ih]
    simp [denote]
  | .qop .and [] => by
    intro i hi
    simp only [goMatch, if_true]
    rw [bTest_setAll _ res.values.length i (newMatchBuilder_rest_length _) hi]
    simp [denote]
  | .qop .and (q :: qs) => by
    intro i hi
    have ih1 := goMatch_bTest_units mp ext res q i hi
    have ih2 := goMatch_bTest_units mp ext res (.qop .and qs) i hi
    simp only [goMatch]
    rw [bTest_and _ _ i (by rw [goMatch_rest_length, goMatch_rest_length])]
    rw [ih1, ih2]
    simp [denote]
  | .qop .or [] => by
    intro i hi
    simp only [goMatch, if_true]
    rw [bTest_newMatchBuilder]
    simp [denote]
  | .qop .or (q :: qs) => by
    intro i hi
    have ih1 := goMatch_bTest_units mp ext res q i hi
    have ih2 := goMatch_bTest_units mp ext res (.qop .or qs) i hi
    simp only [goMatch]
    rw [bTest_or _ _ i (by rw [goMatch_rest_length, goMatch_rest_length])]
    rw [ih1, ih2]
    simp [denote]

/-- When the filter does not track units, the builder is a pure
record-level boolean in the head word (bit 0 broadcast over all 64
bits) with no overflow words. -/
theorem goMatch_false (mp : String → String → Bool) (ext : String → BResult → String)
    (res : BResult) :
    ∀ q : Query, usesUnits q = false →
      goMatch mp ext false res q
        = MatchBuilder.mk (if denote mp ext res q 0 then 2 ^ 64 - 1 else 0) []
  | .qmatch off key raw => by
    intro hu
    simp only [usesUnits, beq_eq_false_iff_ne, ne_eq] at hu
    have hu' : (key == ".unit") = false := by
      simp [hu]
    simp only [goMatch, Bool.false_and, Bool.false_eq_true, if_false, denote, hu',
      Bool.false_eq_true, if_false]
    by_cases hm : mp raw (ext key res)
    · simp [hm, MatchBuilder.setAll]
    · simp [hm]
  | .qop .not [] => by
    intro _
    simp [goMatch, denote]
  | .qop .not (q :: rest) => by
    intro hu
    simp only [usesUnits, Bool.or_eq_false_iff] at hu
    have ih := goMatch_false mp ext res q hu.1
    simp only [goMatch, ih, denote]
    by_cases hq : denote mp ext res q 0
    · simp only [hq, if_true, Bool.not_true, Bool.false_eq_true, if_false]
      simp [compl64, Nat.xor_self]
    · simp only [hq, Bool.false_eq_true, if_false, Bool.not_false, if_true]
      simp [compl64]
  | .qop .and [] => by
    intro _
    simp [goMatch, denote, MatchBuilder.setAll]
  | .qop .and (q :: qs) => by
    intro hu
    simp only [usesUnits, Bool.or_eq_false_iff] at hu
    have ih1 := goMatch_false mp ext res q hu.1
    have ih2 := goMatch_false mp ext res (.qop .and qs) hu.2
    simp only [goMatch, ih1, ih2, denote]
    by_cases h1 : denote mp ext res q 0 <;>
      by_cases h2 : denote mp ext res (.qop .and qs) 0 <;>
        simp [h1, h2, Nat.and_self, Nat.and_zero, Nat.zero_and]
  | .qop .or [] => by
    intro _
    simp [goMatch, denote]
  | .qop .or (q :: qs) => by
    intro hu
    simp only [usesUnits, Bool.or_eq_false_iff] at hu
    have ih1 := goMatch_false mp ext res q hu.1
    have ih2 := goMatch_false mp ext res (.qop .or qs) hu.2
    simp only [goMatch, ih1, ih2, denote]
    by_cases h1 : denote mp ext res q 0 <;>
      by_cases h2 : denote mp ext res (.qop .or qs) 0 <;>
        simp [h1, h2, Nat.or_self, Nat.or_zero, Nat.zero_or]

theorem test_nonAllEqual (m : MatchBuilder) (n i : Nat) (hi : i < n) :
    (GoMatch.mk n false m.head m.rest).test i = bTest m i := by
  unfold GoMatch.test bTest
  simp [Nat.not_le.mpr hi]

theorem test_finish_false (m : MatchBuilder) (n i : Nat) (hi : i < n) :
    (m.finish false n).test i = bTest m i := by
  unfold MatchBuilder.finish
  simp only [Bool.false_eq_true, if_false]
  by_cases hall : (List.range' 1 (n - 1)).all
      (fun k => (GoMatch.mk n false m.head m.rest).test k == (m.head &&& 1 != 0))
  · simp only [hall, if_true]
    have hcollapsed : (GoMatch.mk n true (m.head &&& 1) []).test i
        = (m.head &&& 1 != 0) := by
      unfold GoMatch.test
      simp only [Nat.not_le.mpr hi, if_false, if_true]
      rw [show (m.head &&& 1) &&& 1 = m.head &&& 1 from by
        rw [Nat.and_assoc, Nat.and_self]]
    rw [hcollapsed]
    by_cases hi0 : i = 0
    · subst hi0
      unfold bTest
      simp only [Nat.zero_lt_succ, if_true]
      rfl
    · have hmem : i ∈ List.range' 1 (n - 1) := by
        rw [List.mem_range'_1]
        omega
      have := List.all_eq_true.mp hall i hmem
      have h2 : (GoMatch.mk n false m.head m.rest).test i = (m.head &&& 1 != 0) := by
        exact beq_iff_eq.mp this
      rw [← h2]
      exact test_nonAllEqual m n i hi
  · simp only [hall, Bool.false_eq_true, if_false]
    exact test_nonAllEqual m n i hi

theorem test_finish_broadcast (m : MatchBuilder) (n i : Nat) (hi : i < n) :
    (m.finish true n).test i = (m.head &&& 1 != 0) := by
  unfold MatchBuilder.finish GoMatch.test
  simp [Nat.not_le.mpr hi]

/-- The central bridge: `Filter.Match(res).Test(i)` computes the spec's
per-measurement denotation, for every query and in-range index. -/
theorem test_eq_denote (mp : String → String → Bool) (ext : String → BResult → String)
    (res : BResult) (q : Query) (i : Nat) (hi : i < res.values.length) :
    (filterMatch mp ext q res).test i = denote mp ext res q i := by
  unfold filterMatch
  cases hu : usesUnits q
  · simp only [hu, Bool.not_false]
    rw [test_finish_broadcast _ _ _ hi]
    rw [goMatch_false mp ext res q hu]
    rw [denote_const mp ext res q hu i 0]
    by_cases hd : denote mp ext res q 0
    · simp only [hd, if_true]
      decide
    · simp only [hd, Bool.false_eq_true, if_false]
      decide
  · simp only [hu, Bool.not_true]
    rw [test_finish_false _ _ _ hi]
    exact goMatch_bTest_units mp ext res q i hi

/-! ## kvql tokenizer and parser (tok.go, parse.go)

Tokens carry byte offsets (UTF-8 sizes of the consumed characters).
`unicode.IsSpace` is modelled for ASCII whitespace plus U+0085/U+00A0;
`strconv.Quote` is modelled as plain double-quoting (no escape
sequences), which agrees with Go on strings free of characters needing
escapes. `regexp.Compile` is abstracted as an environment
`recompile : String → Option String` returning an error message for
patterns that fail to compile (`none` means the pattern compiles). -/

/-- A token: its kind byte (`'w'`/`'q'` for words, an operator
character, or `'\x00'` for the end-of-string token), byte offset, and
contents. -/
structure Tok where
  kind : Char
  off : Nat
  tok : String
deriving DecidableEq, Repr

/-- A kvql syntax error: the query string, byte offset and message. -/
structure SynErr where
  query : String
  off : Nat
  msg : String
deriving DecidableEq, Repr

def goIsSpace (c : Char) : Bool :=
  c = ' ' || c = '\t' || c = '\n' || c = '\x0b' || c = '\x0c' || c = '\r' ||
    c = '\x85' || c = '\xa0'

def isOpChar (c : Char) : Bool :=
  c = '(' || c = ')' || c = ':' || c = '@' || c = ','

def utf8Len (cs : List Char) : Nat := (cs.map Char.utf8Size).sum

/-- Split a quoted word at the closing quote: contents before it and the
remainder after it (`none` when the quote is unterminated). -/
def splitAtQuote : List Char → Option (List Char × List Char)
  | [] => none
  | c :: rest =>
    if c = '"' then some ([], rest)
    else (splitAtQuote rest).map (fun p => (c :: p.1, p.2))

theorem splitAtQuote_length : ∀ (cs : List Char) (w r : List Char),
    splitAtQuote cs = some (w, r) → r.length ≤ cs.length := by
  intro cs
  induction cs with
  | nil => intro w r h; cases h
  | cons c rest ih =>
    intro w r h
    by_cases hc : c = '"'
    · simp only [splitAtQuote, hc, if_true] at h
      cases h
      simp
    · simp only [splitAtQuote, hc, if_false] at h
      cases hsp : splitAtQuote rest with
      | none => rw [hsp] at h; cases h
      | some p =>
        rw [hsp] at h
        simp only [Option.map_some', Option.some.injEq, Prod.mk.injEq] at h
        obtain ⟨h1, h2⟩ := h
        have := ih p.1 p.2 hsp
        subst h2
        simp
        omega

theorem length_dropWhile_le (p : Char → Bool) (l : List Char) :
    (l.dropWhile p).length ≤ l.length := by
  induction l with
  | nil => simp [List.dropWhile]
  | cons a l ih =>
    simp only [List.dropWhile]
    split
    · exact Nat.le_trans ih (Nat.le_succ _)
    · simp

/-- The tokenizer loop (`Tokenize` in tok.go): emit single-character
operator tokens (including `-` and `*` at word boundaries), skip spaces,
consume quoted and unquoted words. Errors are `(offset, message)`.
The loop consumes at least one character per iteration, so any fuel
above the input length computes Go's (total) loop; see
`tokenizeLoop_fuel`. -/
def tokenizeLoop : Nat → List Char → Nat → Except (Nat × String) (List Tok)
  | 0, _, off => .error (off, "out of fuel")
  | _ + 1, [], _ => .ok []
  | fuel + 1, c :: rest, off =>
    if isOpChar c || c = '-' || c = '*' then
      match tokenizeLoop fuel rest (off + c.utf8Size) with
      | .error e => .error e
      | .ok ts => .ok (Tok.mk c off (String.mk [c]) :: ts)
    else if goIsSpace c then
      tokenizeLoop fuel rest (off + c.utf8Size)
    else if c = '"' then
      match splitAtQuote rest with
      | none => .error (off, "missing end quote")
      | some p =>
        match tokenizeLoop fuel p.2 (off + 1 + utf8Len p.1 + 1) with
        | .error e => .error e
        | .ok ts => .ok (Tok.mk 'q' off (String.mk p.1) :: ts)
    else
      let keep : Char → Bool := fun d => !(goIsSpace d || isOpChar d)
      let word := c :: rest.takeWhile keep
      match tokenizeLoop fuel (rest.dropWhile keep) (off + utf8Len word) with
      | .error e => .error e
      | .ok ts => .ok (Tok.mk 'w' off (String.mk word) :: ts)

/-- Any fuel above the input length computes the same result: the fuel
counter never runs out on the fuel `Tokenize` actually passes, so the
model computes Go's loop. -/
theorem tokenizeLoop_fuel : ∀ (n : Nat) (cs : List Char) (fuel1 fuel2 off : Nat),
    cs.length ≤ n → cs.length < fuel1 → cs.length < fuel2 →
    tokenizeLoop fuel1 cs off = tokenizeLoop fuel2 cs off := by
  intro n
  induction n with
  | zero =>
    intro cs fuel1 fuel2 off hn h1 h2
    cases cs with
    | nil =>
      cases fuel1 with
      | zero => omega
      | succ f1 =>
        cases fuel2 with
        | zero => omega
        | succ f2 => rfl
    | cons c rest => simp at hn
  | succ n ih =>
    intro cs fuel1 fuel2 off hn h1 h2
    cases cs with
    | nil =>
      cases fuel1 with
      | zero => omega
      | succ f1 =>
        cases fuel2 with
        | zero => omega
        | succ f2 => rfl
    | cons c rest =>
      cases fuel1 with
      | zero => omega
      | succ f1 =>
        cases fuel2 with
        | zero => omega
        | succ f2 =>
          simp only [List.length_cons] at hn h1 h2
          simp only [tokenizeLoop]
          split
          · rw [ih rest f1 f2 (off + c.utf8Size) (by omega) (by omega) (by omega)]
          · split
            · exact ih rest f1 f2 (off + c.utf8Size) (by omega) (by omega) (by omega)
            · split
              · cases hsp : splitAtQuote rest with
                | none => rfl
                | some p =>
                  have hlen := splitAtQuote_length rest p.1 p.2 hsp
                  dsimp only
                  rw [ih p.2 f1 f2 (off + 1 + utf8Len p.1 + 1)
                    (by omega) (by omega) (by omega)]
              · have hlen := length_dropWhile_le
                  (fun d => !(goIsSpace d || isOpChar d)) rest
                rw [ih (rest.dropWhile (fun d => !(goIsSpace d || isOpChar d)))
                  f1 f2 (off + utf8Len (c :: rest.takeWhile
                    (fun d => !(goIsSpace d || isOpChar d))))
                  (by omega) (by omega) (by omega)]

/-- `Tokenize`: run the loop and append the end-of-string token carrying
the total byte length. -/
def goTokenize (s : String) : Except SynErr (List Tok) :=
  match tokenizeLoop (s.data.length + 1) s.data 0 with
  | .error e => .error (SynErr.mk s e.1 e.2)
  | .ok ts => .ok (ts ++ [Tok.mk '\x00' (utf8Len s.data) ""])

/-- `parse`'s token rewrite: recognize `AND`/`OR` operators among
unquoted words, and downgrade quoted words to plain words. -/
def rewriteToks (toks : List Tok) : List Tok :=
  toks.map (fun t =>
    if t.kind = 'w' then
      if t.tok = "AND" then { t with kind := 'A' }
      else if t.tok = "OR" then { t with kind := 'O' }
      else t
    else if t.kind = 'q' then { t with kind := 'w' }
    else t)

/-- Parser state: the best (minimum-offset) error so far, plus the ghost
list of every error candidate recorded. -/
structure PState where
  err : Option SynErr
  cands : List SynErr
deriving DecidableEq, Repr

def tokAt (toks : List Tok) (i : Nat) : Tok := toks.getD i (Tok.mk '\x00' 0 "")

/-- `parser.error`: record an error candidate, keep the one with the
smallest offset, and move to the end token. -/
def perror (q : String) (toks : List Tok) (st : PState) (i : Nat) (msg : String) :
    PState × Nat :=
  let off := (tokAt toks i).off
  let e := SynErr.mk q off msg
  let st' : PState :=
    { err :=
        match st.err with
        | none => some e
        | some e0 => if off < e0.off then some e else some e0,
      cands := e :: st.cands }
  (st', toks.length - 1)

/-- A nil `Query` (only produced after an error has been recorded; the
resulting tree is discarded when the parser reports the error). -/
def unopt (o : Option Query) : Query := o.getD (.qop .and [])

/-- `strconv.Quote` restricted to strings needing no escapes. -/
def goQuote (s : String) : String := "\"" ++ s ++ "\""

/-- `parser.matchWord`: check that the pattern compiles (recording a
syntax error at the word when it does not), and build the
`QueryMatch` leaf carrying the key's offset and the raw pattern. -/
def pMatchWord (recompile : String → Option String) (q : String) (toks : List Tok)
    (st : PState) (i : Nat) (keyOff : Nat) (key : String) :
    Option Query × Nat × PState :=
  match recompile (tokAt toks i).tok with
  | some errmsg =>
    let p := perror q toks st i errmsg
    (none, p.2, p.1)
  | none => (some (.qmatch keyOff key (tokAt toks i).tok), i + 1, st)

/-! The recursive-descent parser (`parser.expr`/`orExpr`/`andExpr`/
`phrase`/`match` in parse.go). Each function returns the parsed query
(`none` for Go's nil), the next token index and the updated error
state. Go's unbounded recursion is driven by a fuel counter; running
out of fuel returns the nil query and leaves the state untouched. -/

mutual

def pExpr (recompile : String → Option String) (q : String) (toks : List Tok) :
    Nat → PState → Nat → Option Query × Nat × PState
  | 0, st, i => (none, i, st)
  | fuel+1, st, i => pOrExpr recompile q toks fuel st i
termination_by structural fuel => fuel

def pOrExpr (recompile : String → Option String) (q : String) (toks : List Tok) :
    Nat → PState → Nat → Option Query × Nat × PState
  | 0, st, i => (none, i, st)
  | fuel+1, st, i =>
    let r := pAndExpr recompile q toks fuel st i
    if (tokAt toks r.2.1).kind ≠ 'O' then r
    else pOrLoop recompile q toks fuel r.2.2 r.2.1 [r.1]
termination_by structural fuel => fuel

def pOrLoop (recompile : String → Option String) (q : String) (toks : List Tok) :
    Nat → PState → Nat → List (Option Query) → Option Query × Nat × PState
  | 0, st, i, _ => (none, i, st)
  | fuel+1, st, i, terms =>
    if (tokAt toks i).kind = 'O' then
      let r := pAndExpr recompile q toks fuel st (i + 1)
      pOrLoop recompile q toks fuel r.2.2 r.2.1 (terms ++ [r.1])
    else (some (.qop .or (terms.map unopt)), i, st)
termination_by structural fuel => fuel

def pAndExpr (recompile : String → Option String) (q : String) (toks : List Tok) :
    Nat → PState → Nat → Option Query × Nat × PState
  | 0, st, i => (none, i, st)
  | fuel+1, st, i =>
    let r := pPhrase recompile q toks fuel st i
    if (tokAt toks r.2.1).kind ≠ 'A' then r
    else pAndLoop recompile q toks fuel r.2.2 r.2.1 [r.1]
termination_by structural fuel => fuel

def pAndLoop (recompile : String → Option String) (q : String) (toks : List Tok) :
    Nat → PState → Nat → List (Option Query) → Option Query × Nat × PState
  | 0, st, i, _ => (none, i, st)
  | fuel+1, st, i, terms =>
    if (tokAt toks i).kind = 'A' then
      let r := pPhrase recompile q toks fuel st (i + 1)
      pAndLoop recompile q toks fuel r.2.2 r.2.1 (terms ++ [r.1])
    else (some (.qop .and (terms.map unopt)), i, st)
termination_by structural fuel => fuel

def pPhrase (recompile : String → Option String) (q : String) (toks : List Tok) :
    Nat → PState → Nat → Option Query × Nat × PState
  | 0, st, i => (none, i, st)
  | fuel+1, st, i => pPhraseLoop recompile q toks fuel st i []
termination_by structural fuel => fuel

def pPhraseLoop (recompile : String → Option String) (q : String) (toks : List Tok) :
    Nat → PState → Nat → List (Option Query) → Option Query × Nat × PState
  | 0, st, i, _ => (none, i, st)
  | fuel+1, st, i, terms =>
    let k := (tokAt toks i).kind
    if k = '(' || k = '-' || k = 'w' || k = '*' then
      let r := pMatch recompile q toks fuel st i
      pPhraseLoop recompile q toks fuel r.2.2 r.2.1 (terms ++ [r.1])
    else if k = ')' || k = 'A' || k = 'O' || k = '\x00' then
      match terms with
      | [] =>
        let p := perror q toks st i "nothing to match"
        (none, p.2, p.1)
      | [t] => (t, i, st)
      | _ => (some (.qop .and (terms.map unopt)), i, st)
    else
      let p := perror q toks st i ("unexpected " ++ goQuote (tokAt toks i).tok)
      (none, p.2, p.1)
termination_by structural fuel => fuel

def pMatch (recompile : String → Option String) (q : String) (toks : List Tok) :
    Nat → PState → Nat → Option Query × Nat × PState
  | 0, st, i => (none, i, st)
  | fuel+1, st, i =>
    let k := (tokAt toks i).kind
    if k = '(' then
      let r := pExpr recompile q toks fuel st (i + 1)
      if (tokAt toks r.2.1).kind ≠ ')' then
        let p := perror q toks r.2.2 r.2.1 "missing \")\""
        (none, p.2, p.1)
      else (r.1, r.2.1 + 1, r.2.2)
    else if k = '-' then
      let r := pMatch recompile q toks fuel st (i + 1)
      (some (.qop .not [unopt r.1]), r.2.1, r.2.2)
    else if k = '*' then
      (some (.qop .and []), i + 1, st)
    else if k = 'w' then
      let off := (tokAt toks i).off
      let key := (tokAt toks i).tok
      if (tokAt toks (i + 1)).kind ≠ ':' then
        let p := perror q toks st i "expected key:value"
        (none, p.2, p.1)
      else
        let k2 := (tokAt toks (i + 2)).kind
        if k2 = 'w' then pMatchWord recompile q toks st (i + 2) off key
        else if k2 = '(' then
          pMultiLoop recompile q toks fuel st (i + 3) off key []
        else
          let p := perror q toks st i "expected key:value"
          (none, p.2, p.1)
    else
      let p := perror q toks st i "expected key:value or subexpression"
      (none, p.2, p.1)
termination_by structural fuel => fuel

def pMultiLoop (recompile : String → Option String) (q : String) (toks : List Tok) :
    Nat → PState → Nat → Nat → String → List (Option Query) →
      Option Query × Nat × PState
  | 0, st, i, _, _, _ => (none, i, st)
  | fuel+1, st, i, off, key, terms =>
    if (tokAt toks i).kind = 'w' then
      let r := pMatchWord recompile q toks st i off key
      pMultiLoop recompile q toks fuel r.2.2 r.2.1 off key (terms ++ [r.1])
    else if (tokAt toks i).kind ≠ ')' then
      let p := perror q toks st i "expected value"
      (none, p.2, p.1)
    else
      match terms with
      | [] =>
        let p := perror q toks st i "nothing to match"
        (none, p.2, p.1)
      | _ => (some (.qop .or (terms.map unopt)), i + 1, st)
termination_by structural fuel => fuel

end

/-- The grammar run of `parse`: start at token 0 with a clean state and
reject trailing input. Returns the parsed query and the final error
state. -/
def parseState (recompile : String → Option String) (s : String)
    (toks : List Tok) : Option Query × PState :=
  let r := pExpr recompile s toks (4 * toks.length + 8) (PState.mk none []) 0
  if (tokAt toks r.2.1).kind = '\x00' then (r.1, r.2.2)
  else (r.1, (perror s toks r.2.2 r.2.1
    ("unexpected " ++ goQuote (tokAt toks r.2.1).tok)).1)

/-- `parse` plus the ghost candidate list: tokenize, rewrite operator
tokens, run the grammar, and return the minimum-offset error if any was
recorded. A tokenizer error is the sole candidate. -/
def parseWithState (recompile : String → Option String) (s : String) :
    Except SynErr Query × List SynErr :=
  match goTokenize s with
  | .error e => (.error e, [e])
  | .ok toks0 =>
    let p := parseState recompile s (rewriteToks toks0)
    match p.2.err with
    | some e => (.error e, p.2.cands)
    | none => (.ok (unopt p.1), p.2.cands)

/-- `Parse`: the public entry point. -/
def goParse (recompile : String → Option String) (s : String) :
    Except SynErr Query :=
  (parseWithState recompile s).1

/-- A word needs quoting in `Query.String()` output when it contains
whitespace or one of `"`, `(`, `)`, `:` (part_014 `quoteWord`). -/
def goQuoteWord (s : String) : String :=
  if s.data.any (fun c => goIsSpace c || c = '"' || c = '(' || c = ')' || c = ':')
  then goQuote s else s

mutual

/-- `Query.String()`: `QueryMatch` renders as `key:value` with quoting
as needed; `-` prefixes a negation; binary operators render
parenthesized and separated by ` AND `/` OR `. Modelled from the spec
and parse_test.go for the empty cases absent from part_014: an empty
AND (the `*` query) renders as `*`. -/
def render : Query → String
  | .qmatch _ key raw => goQuoteWord key ++ ":" ++ goQuoteWord raw
  | .qop .not [] => "-"
  | .qop .not (q :: _) => "-" ++ render q
  | .qop .and [] => "*"
  | .qop .and (q :: qs) => "(" ++ render q ++ renderTail " AND " qs ++ ")"
  | .qop .or [] => "()"
  | .qop .or (q :: qs) => "(" ++ render q ++ renderTail " OR " qs ++ ")"

def renderTail (sep : String) : List Query → String
  | [] => ""
  | q :: qs => sep ++ render q ++ renderTail sep qs

end

/-! ## Claim theorems for the filter and the parser -/

/-- C3: boolean algebra of matching. For every record, pattern and
extractor environment, all queries and every value index in range, the
`Match` a `Filter` produces for a negation tests as the pointwise
negation, for a two-child AND as the pointwise conjunction, and for a
two-child OR as the pointwise disjunction of the children's `Match`
bits. -/
theorem c3_boolean_algebra (mp : String → String → Bool)
    (ext : String → BResult → String) (res : BResult) (q q1 q2 : Query)
    (i : Nat) (hi : i < res.values.length) :
    (filterMatch mp ext (.qop .not [q]) res).test i =
      !((filterMatch mp ext q res).test i) ∧
    (filterMatch mp ext (.qop .and [q1, q2]) res).test i =
      ((filterMatch mp ext q1 res).test i && (filterMatch mp ext q2 res).test i) ∧
    (filterMatch mp ext (.qop .or [q1, q2]) res).test i =
      ((filterMatch mp ext q1 res).test i || (filterMatch mp ext q2 res).test i) := by
  refine ⟨?_, ?_, ?_⟩
  · rw [test_eq_denote mp ext res _ i hi, test_eq_denote mp ext res q i hi]
    simp [denote]
  · rw [test_eq_denote mp ext res _ i hi, test_eq_denote mp ext res q1 i hi,
      test_eq_denote mp ext res q2 i hi]
    simp [denote]
  · rw [test_eq_denote mp ext res _ i hi, test_eq_denote mp ext res q1 i hi,
      test_eq_denote mp ext res q2 i hi]
    simp [denote]

theorem c3_boolean_algebra_witness :
    (0 < (BResult.mk [] "n" [BValue.mk 1 "u"]).values.length) ∧
    ((filterMatch (fun p v => p == v) (fun k _ => k)
        (.qop .not [.qmatch 0 "a" "a"]) (BResult.mk [] "n" [BValue.mk 1 "u"])).test 0 =
      !((filterMatch (fun p v => p == v) (fun k _ => k)
        (.qmatch 0 "a" "a") (BResult.mk [] "n" [BValue.mk 1 "u"])).test 0) ∧
    (filterMatch (fun p v => p == v) (fun k _ => k)
        (.qop .and [.qmatch 0 "a" "a", .qmatch 0 "b" "c"])
        (BResult.mk [] "n" [BValue.mk 1 "u"])).test 0 =
      ((filterMatch (fun p v => p == v) (fun k _ => k)
          (.qmatch 0 "a" "a") (BResult.mk [] "n" [BValue.mk 1 "u"])).test 0 &&
        (filterMatch (fun p v => p == v) (fun k _ => k)
          (.qmatch 0 "b" "c") (BResult.mk [] "n" [BValue.mk 1 "u"])).test 0) ∧
    (filterMatch (fun p v => p == v) (fun k _ => k)
        (.qop .or [.qmatch 0 "a" "a", .qmatch 0 "b" "c"])
        (BResult.mk [] "n" [BValue.mk 1 "u"])).test 0 =
      ((filterMatch (fun p v => p == v) (fun k _ => k)
          (.qmatch 0 "a" "a") (BResult.mk [] "n" [BValue.mk 1 "u"])).test 0 ||
        (filterMatch (fun p v => p == v) (fun k _ => k)
          (.qmatch 0 "b" "c") (BResult.mk [] "n" [BValue.mk 1 "u"])).test 0)) :=
  ⟨by decide,
    c3_boolean_algebra (fun p v => p == v) (fun k _ => k)
      (BResult.mk [] "n" [BValue.mk 1 "u"])
      (.qmatch 0 "a" "a") (.qmatch 0 "a" "a") (.qmatch 0 "b" "c") 0 (by decide)⟩

/-- The query the parser produces for `".unit:(ns/op B/op)"`. -/
def qUnitExample : Query :=
  .qop .or [.qmatch 0 ".unit" "ns/op", .qmatch 0 ".unit" "B/op"]

/-- A record with measurement units `ns/op`, `B/op`, `allocs/op`. -/
def resUnitsExample : BResult :=
  BResult.mk [] "Name"
    [BValue.mk 1 "ns/op", BValue.mk 2 "B/op", BValue.mk 3 "allocs/op"]

/-- C4: per-measurement bitset semantics. For every query referencing
`.unit` and every in-range value index, the produced `Match` bit equals
the reference per-measurement denotation (`.unit` leaves test the
value's unit, other leaves broadcast the record-level test, operators
combine bitwise, `AND() = true`, `OR() = false`); and concretely,
`".unit:(ns/op B/op)"` parses to an OR of two `.unit` leaves whose
`Match` against units `[ns/op, B/op, allocs/op]` has bits
`[true, true, false]`. -/
theorem c4_unit_bitset (mp : String → String → Bool)
    (ext : String → BResult → String) (res : BResult) (q : Query) (i : Nat)
    (hi : i < res.values.length) (hu : usesUnits q = true) :
    ((filterMatch mp ext q res).test i = denote mp ext res q i ∧
      usesUnits q = true) ∧
    goParse (fun _ => none) ".unit:(ns/op B/op)" = .ok qUnitExample ∧
    (filterMatch (fun p v => p == v) (fun _ _ => "") qUnitExample
        resUnitsExample).test 0 = true ∧
    (filterMatch (fun p v => p == v) (fun _ _ => "") qUnitExample
        resUnitsExample).test 1 = true ∧
    (filterMatch (fun p v => p == v) (fun _ _ => "") qUnitExample
        resUnitsExample).test 2 = false := by
  refine ⟨⟨test_eq_denote mp ext res q i hi, hu⟩, rfl, ?_, ?_, ?_⟩
  · rw [test_eq_denote (fun p v => p == v) (fun _ _ => "") resUnitsExample
      qUnitExample 0 (by simp [resUnitsExample])]
    simp [denote, qUnitExample, resUnitsExample]
  · rw [test_eq_denote (fun p v => p == v) (fun _ _ => "") resUnitsExample
      qUnitExample 1 (by simp [resUnitsExample])]
    simp [denote, qUnitExample, resUnitsExample]
  · rw [test_eq_denote (fun p v => p == v) (fun _ _ => "") resUnitsExample
      qUnitExample 2 (by simp [resUnitsExample])]
    simp [denote, qUnitExample, resUnitsExample]

theorem c4_unit_bitset_witness :
    (0 < resUnitsExample.values.length ∧ usesUnits qUnitExample = true) ∧
    (((filterMatch (fun p v => p == v) (fun _ _ => "") qUnitExample
          resUnitsExample).test 0 =
        denote (fun p v => p == v) (fun _ _ => "") resUnitsExample qUnitExample 0 ∧
      usesUnits qUnitExample = true) ∧
    goParse (fun _ => none) ".unit:(ns/op B/op)" = .ok qUnitExample ∧
    (filterMatch (fun p v => p == v) (fun _ _ => "") qUnitExample
        resUnitsExample).test 0 = true ∧
    (filterMatch (fun p v => p == v) (fun _ _ => "") qUnitExample
        resUnitsExample).test 1 = true ∧
    (filterMatch (fun p v => p == v) (fun _ _ => "") qUnitExample
        resUnitsExample).test 2 = false) :=
  ⟨⟨by simp [resUnitsExample], by simp [usesUnits, qUnitExample]⟩,
    c4_unit_bitset (fun p v => p == v) (fun _ _ => "") resUnitsExample
      qUnitExample 0 (by simp [resUnitsExample]) (by simp [usesUnits, qUnitExample])⟩

/-- C5: `Match.Apply` on a zero-value record. The claim (and `Apply`'s
own documentation) says `Apply` returns whether any values matched /
remained, for every record including those with zero measurement
values. The code short-circuits on `All()` and returns `true`, and the
`Match` a record-level matching query produces for a zero-value record
satisfies `All()` vacuously: no index tests true, the value list stays
empty, yet `Apply` reports `true`. -/
theorem c5_apply_empty_record_bug :
    (∀ i, (filterMatch (fun p v => p == v) (fun _ _ => "x")
        (.qmatch 0 "k" "x") (BResult.mk [] "nm" [])).test i = false) ∧
    (filterMatch (fun p v => p == v) (fun _ _ => "x")
        (.qmatch 0 "k" "x") (BResult.mk [] "nm" [])).all = true ∧
    (filterMatch (fun p v => p == v) (fun _ _ => "x")
        (.qmatch 0 "k" "x") (BResult.mk [] "nm" [])).apply
      (BResult.mk [] "nm" []) = (BResult.mk [] "nm" [], true) := by
  have hm : filterMatch (fun p v => p == v) (fun _ _ => "x")
      (.qmatch 0 "k" "x") (BResult.mk [] "nm" []) =
      GoMatch.mk 0 true (2 ^ 64 - 1) [] := by
    simp [filterMatch, usesUnits, goMatch, newMatchBuilder, MatchBuilder.setAll,
      MatchBuilder.finish]
  refine ⟨?_, ?_, ?_⟩
  · intro i
    simp [hm, GoMatch.test]
  · simp [hm, GoMatch.all]
  · simp [hm, GoMatch.apply, GoMatch.all]

/-! ## C9: the reported error is the minimum-offset candidate -/

/-- The parser-state invariant: every recorded candidate carries the
query string, the kept error is `none` exactly when no candidate was
recorded, and otherwise it is a recorded candidate of minimum offset. -/
def errInv (s : String) (st : PState) : Prop :=
  (∀ e ∈ st.cands, e.query = s) ∧
  (st.err = none → st.cands = []) ∧
  (∀ e, st.err = some e → e ∈ st.cands ∧ ∀ e2 ∈ st.cands, e.off ≤ e2.off)

theorem errInv_init (s : String) : errInv s (PState.mk none []) := by
  refine ⟨?_, ?_, ?_⟩
  · intro e he
    simp at he
  · intro _
    rfl
  · intro e he
    simp [PState.mk] at he

theorem perror_inv (s : String) (toks : List Tok) (st : PState) (i : Nat)
    (msg : String) (h : errInv s st) : errInv s (perror s toks st i msg).1 := by
  obtain ⟨hq, hnone, hsome⟩ := h
  refine ⟨?_, ?_, ?_⟩
  · intro e he
    simp only [perror] at he
    rcases List.mem_cons.mp he with h1 | h1
    · subst h1
      rfl
    · exact hq e h1
  · intro hcontra
    simp only [perror] at hcontra
    cases herr : st.err with
    | none => simp [herr] at hcontra
    | some e0 =>
      rw [herr] at hcontra
      dsimp only at hcontra
      split at hcontra <;> cases hcontra
  · intro e he
    simp only [perror] at he ⊢
    cases herr : st.err with
    | none =>
      rw [herr] at he
      have hc := hnone herr
      simp only [Option.some.injEq] at he
      subst he
      refine ⟨List.mem_cons_self _ _, ?_⟩
      intro e2 he2
      rw [hc] at he2
      rcases List.mem_cons.mp he2 with h1 | h1
      · subst h1
        exact Nat.le_refl _
      · simp at h1
    | some e0 =>
      rw [herr] at he
      dsimp only at he
      obtain ⟨hmem, hmin⟩ := hsome e0 herr
      by_cases hlt : (tokAt toks i).off < e0.off
      · rw [if_pos hlt] at he
        simp only [Option.some.injEq] at he
        subst he
        refine ⟨List.mem_cons_self _ _, ?_⟩
        intro e2 he2
        rcases List.mem_cons.mp he2 with h1 | h1
        · subst h1
          exact Nat.le_refl _
        · have := hmin e2 h1
          simp only
          omega
      · rw [if_neg hlt] at he
        simp only [Option.some.injEq] at he
        subst he
        refine ⟨List.mem_cons_of_mem _ hmem, ?_⟩
        intro e2 he2
        rcases List.mem_cons.mp he2 with h1 | h1
        · subst h1
          simp only
          omega
        · exact hmin e2 h1

theorem pMatchWord_inv (recompile : String → Option String) (s : String)
    (toks : List Tok) (st : PState) (i keyOff : Nat) (key : String)
    (h : errInv s st) :
    errInv s (pMatchWord recompile s toks st i keyOff key).2.2 := by
  unfold pMatchWord
  cases recompile (tokAt toks i).tok with
  | none => exact h
  | some msg => exact perror_inv s toks st i msg h

/-- The state invariant is preserved by every parser function: errors
only enter the state through `parser.error`, which keeps the
minimum-offset candidate. -/
theorem parser_inv (recompile : String → Option String) (s : String)
    (toks : List Tok) : ∀ fuel : Nat,
    (∀ st i, errInv s st → errInv s (pExpr recompile s toks fuel st i).2.2) ∧
    (∀ st i, errInv s st → errInv s (pOrExpr recompile s toks fuel st i).2.2) ∧
    (∀ st i ts, errInv s st →
      errInv s (pOrLoop recompile s toks fuel st i ts).2.2) ∧
    (∀ st i, errInv s st → errInv s (pAndExpr recompile s toks fuel st i).2.2) ∧
    (∀ st i ts, errInv s st →
      errInv s (pAndLoop recompile s toks fuel st i ts).2.2) ∧
    (∀ st i, errInv s st → errInv s (pPhrase recompile s toks fuel st i).2.2) ∧
    (∀ st i ts, errInv s st →
      errInv s (pPhraseLoop recompile s toks fuel st i ts).2.2) ∧
    (∀ st i, errInv s st → errInv s (pMatch recompile s toks fuel st i).2.2) ∧
    (∀ st i off key ts, errInv s st →
      errInv s (pMultiLoop recompile s toks fuel st i off key ts).2.2) := by
  intro fuel
  induction fuel with
  | zero =>
    exact ⟨fun st i h => h, fun st i h => h, fun st i ts h => h,
      fun st i h => h, fun st i ts h => h, fun st i h => h,
      fun st i ts h => h, fun st i h => h, fun st i off key ts h => h⟩
  | succ fuel ih =>
    obtain ⟨ihE, ihO, ihOL, ihA, ihAL, ihP, ihPL, ihM, ihML⟩ := ih
    refine ⟨?_, ?_, ?_, ?_, ?_, ?_, ?_, ?_, ?_⟩
    · intro st i h
      exact ihO st i h
    · intro st i h
      simp only [pOrExpr]
      split
      · exact ihA st i h
      · exact ihOL _ _ _ (ihA st i h)
    · intro st i ts h
      simp only [pOrLoop]
      split
      · exact ihOL _ _ _ (ihA st (i + 1) h)
      · exact h
    · intro st i h
      simp only [pAndExpr]
      split
      · exact ihP st i h
      · exact ihAL _ _ _ (ihP st i h)
    · intro st i ts h
      simp only [pAndLoop]
      split
      · exact ihAL _ _ _ (ihP st (i + 1) h)
      · exact h
    · intro st i h
      simp only [pPhrase]
      exact ihPL st i [] h
    · intro st i ts h
      simp only [pPhraseLoop]
      split
      · exact ihPL _ _ _ (ihM st i h)
      · split
        · cases ts with
          | nil => exact perror_inv s toks st i "nothing to match" h
          | cons t ts2 =>
            cases ts2 with
            | nil => exact h
            | cons t2 ts3 => exact h
        · exact perror_inv s toks st i _ h
    · intro st i h
      simp only [pMatch]
      split
      · split
        · exact perror_inv s toks _ _ _ (ihE st (i + 1) h)
        · exact ihE st (i + 1) h
      · split
        · exact ihM st (i + 1) h
        · split
          · exact h
          · split
            · split
              · exact perror_inv s toks st i "expected key:value" h
              · split
                · exact pMatchWord_inv recompile s toks st (i + 2) _ _ h
                · split
                  · exact ihML _ _ _ _ _ h
                  · exact perror_inv s toks st i "expected key:value" h
            · exact perror_inv s toks st i "expected key:value or subexpression" h
    · intro st i off key ts h
      simp only [pMultiLoop]
      split
      · exact ihML _ _ _ _ _ (pMatchWord_inv recompile s toks st i off key h)
      · split
        · exact perror_inv s toks st i "expected value" h
        · cases ts with
          | nil => exact perror_inv s toks st i "nothing to match" h
          | cons t ts2 => exact h

theorem parseState_inv (recompile : String → Option String) (s : String)
    (toks : List Tok) : errInv s (parseState recompile s toks).2 := by
  unfold parseState
  dsimp only
  split
  · exact (parser_inv recompile s toks _).1 _ _ (errInv_init s)
  · exact perror_inv s toks _ _ _
      ((parser_inv recompile s toks _).1 _ _ (errInv_init s))

/-- C9: syntax-error reporting. Whenever `Parse` returns an error, the
error is a structured value carrying the original query string, and its
byte offset is the minimum over the offsets of every error candidate
the tokenizer or parser recorded (the ghost candidate list of
`parseWithState`); the error itself is one of those candidates. The
parser is modelled as a total function, so no input panics. -/
theorem c9_error_min_offset (recompile : String → Option String) (s : String)
    (e : SynErr) (h : goParse recompile s = .error e) :
    e.query = s ∧ e ∈ (parseWithState recompile s).2 ∧
      ∀ e2 ∈ (parseWithState recompile s).2, e.off ≤ e2.off := by
  unfold goParse at h
  unfold parseWithState at h ⊢
  cases htk : goTokenize s with
  | error et =>
    rw [htk] at h
    dsimp only at h ⊢
    injection h with h2
    subst h2
    have hq : et.query = s := by
      unfold goTokenize at htk
      cases hloop : tokenizeLoop (s.data.length + 1) s.data 0 with
      | error p =>
        rw [hloop] at htk
        dsimp only at htk
        injection htk with h3
        rw [← h3]
      | ok ts =>
        rw [hloop] at htk
        dsimp only at htk
        cases htk
    refine ⟨hq, List.mem_cons_self _ _, ?_⟩
    intro e2 he2
    rcases List.mem_cons.mp he2 with h1 | h1
    · subst h1
      exact Nat.le_refl _
    · simp at h1
  | ok toks0 =>
    rw [htk] at h
    dsimp only at h ⊢
    have hinv := parseState_inv recompile s (rewriteToks toks0)
    cases herr : (parseState recompile s (rewriteToks toks0)).2.err with
    | none =>
      rw [herr] at h
      dsimp only at h
      cases h
    | some e1 =>
      rw [herr] at h
      dsimp only at h
      injection h with h2
      subst h2
      obtain ⟨hmem, hmin⟩ := hinv.2.2 e1 herr
      exact ⟨hinv.1 e1 hmem, hmem, hmin⟩

theorem c9_error_min_offset_witness :
    goParse (fun _ => none) "a:" =
      .error (SynErr.mk "a:" 0 "expected key:value") ∧
    ((SynErr.mk "a:" 0 "expected key:value").query = "a:" ∧
      SynErr.mk "a:" 0 "expected key:value" ∈
        (parseWithState (fun _ => none) "a:").2 ∧
      ∀ e2 ∈ (parseWithState (fun _ => none) "a:").2,
        (SynErr.mk "a:" 0 "expected key:value").off ≤ e2.off) :=
  ⟨rfl, c9_error_min_offset (fun _ => none) "a:"
    (SynErr.mk "a:" 0 "expected key:value") rfl⟩

/-- C6: grammar precedence. `"a:b AND c:d OR e:f"` renders as
`((a:b AND c:d) OR e:f)`; `"a:b c:d OR e:f"` (implicit AND between
adjacent matches) parses to the same shape — an OR whose first child is
the AND of `a:b` and `c:d` — and renders identically. -/
theorem c6_precedence :
    (goParse (fun _ => none) "a:b AND c:d OR e:f").map render =
      .ok "((a:b AND c:d) OR e:f)" ∧
    goParse (fun _ => none) "a:b c:d OR e:f" =
      .ok (.qop .or [.qop .and [.qmatch 0 "a" "b", .qmatch 4 "c" "d"],
        .qmatch 11 "e" "f"]) ∧
    (goParse (fun _ => none) "a:b c:d OR e:f").map render =
      .ok "((a:b AND c:d) OR e:f)" :=
  ⟨rfl, rfl, rfl⟩

end GoPerf
